import Mathlib

/-!
Verification of the Onitama move-generation core (`src/onitama_move_gen/src/gen.rs`).

Machine integers (`u32`, `u64`) are embedded as `Nat` with explicit `% 2^32` /
`% 2^64` at the points where the Rust code can wrap.  The geometry tables
(`SHIFTED`, `SHIFTED_R`, `SHIFTED_L`, `SHIFTED_U`) are an external collaborator
of the core, so they are kept abstract as a `Tables` parameter together with
the contract the spec states for them.
-/

namespace Onitama

/-- All-ones mask of a `u32`. -/
def mask32 : Nat := 2 ^ 32 - 1

/-- All-ones mask of a `u64`. -/
def mask64 : Nat := 2 ^ 64 - 1

/-- `a.andn b` on `u32`: `!a & b` (BMI `andn` from the `bitintr` crate). -/
def andn32 (a b : Nat) : Nat := (mask32 ^^^ a) &&& b

/-- `a.andn b` on `u64`: `!a & b`. -/
def andn64 (a b : Nat) : Nat := (mask64 ^^^ a) &&& b

/-- `u32::trailing_zeros` restricted to nonzero input: index of the lowest set
bit. (At `0` the value is irrelevant: the scanner checks for `0` first.) -/
def tz (n : Nat) : Nat := go n n where
  go : Nat → Nat → Nat
    | 0, _ => 0
    | fuel + 1, n => if n = 0 then 0 else if n % 2 = 1 then 0 else go fuel (n / 2) + 1

/-- Population count (`popcnt`). -/
def popCount (n : Nat) : Nat := go n n where
  go : Nat → Nat → Nat
    | 0, _ => 0
    | fuel + 1, n => if n = 0 then 0 else n % 2 + go fuel (n / 2)

/-- Modelled from the spec: one `next()` step of the Bit Scanner (`BitIter`,
from the repository's `ops` module, not present under `src/`): if the mask is
zero the sequence is over, otherwise the lowest set bit is removed from the
mask and its index is returned (`self.0 &= self.0 - 1`). -/
def bitNext (m : Nat) : Option (Nat × Nat) :=
  if m = 0 then none else some (tz m, m &&& (m - 1))

/-- The whole sequence produced by the Bit Scanner: ascending indices of the
set bits of `m`. -/
def bitsList (m : Nat) : List Nat := go m m where
  go : Nat → Nat → List Nat
    | 0, _ => []
    | fuel + 1, m =>
      match bitNext m with
      | none => []
      | some (b, m') => b :: go fuel m' 

/-- Modelled from the spec: the Card Scanner (`CardIter`, from the repository's
`ops` module, not present under `src/`) is the Bit Scanner specialized to the
16-bit card sub-field of the `cards` word. -/
def cardMask (cards : Nat) : Nat := cards &&& (2 ^ 16 - 1)

/-- `u32::reverse_bits`. -/
def rev32 (x : Nat) : Nat := go x 32 where
  go (x : Nat) : Nat → Nat
    | 0 => 0
    | n + 1 => (x % 2) <<< n + go (x / 2) n

/-- `pub const PIECE_MASK: u32 = (1 << 25) - 1;` -/
def PIECE_MASK : Nat := (1 <<< 25) - 1

/-- The `Game` struct: one position.  `my`/`other` pack a 25-bit board mask
(bits 0–24) and the king square index (bits 25..); `cards` packs the two
held-card sets in its 16-bit halves; `table` is the card on the table. -/
structure Game where
  my : Nat
  other : Nat
  cards : Nat
  table : Nat
deriving DecidableEq

/-- Modelled from the spec: the Geometry Tables collaborator (§6), external to
the core.  `shifted` is the forward destination table `SHIFTED[card][square]`
and `shiftedR` the reverse-shifted table `SHIFTED_R[card][square]` used by the
retrograde enumerator. -/
structure Tables where
  shifted : Nat → Nat → Nat
  shiftedR : Nat → Nat → Nat

/-- Modelled from the spec: `SHIFTED_L`, the low half of the
"both-cards-combined" pair (§4.3): the destination mask replicated into the
low 32-bit half of a 64-bit word. -/
def shiftedL (T : Tables) (card square : Nat) : Nat := T.shifted card square

/-- Modelled from the spec: `SHIFTED_U`, the upper half of the
"both-cards-combined" pair (§4.3): the destination mask placed in the upper
32-bit half of a 64-bit word. -/
def shiftedU (T : Tables) (card square : Nat) : Nat := T.shifted card square <<< 32

/-- Table contract (spec §6): every cell of the forward table is a board mask,
i.e. fits in bits 0–24. -/
def TablesFit (T : Tables) : Prop := ∀ c f, T.shifted c f < 2 ^ 25

/-- Table contract (spec §6): the reverse-shifted table is the converse of the
forward table on board squares: square `f` is a candidate origin for
destination `t` with card `c` exactly when `t` is a destination for origin
`f` with card `c`. -/
def TablesRev (T : Tables) : Prop :=
  ∀ c f t, f < 25 → t < 25 →
    ((T.shiftedR c t).testBit f = (T.shifted c f).testBit t)

/-- The first two indices produced by a side's Card Scanner
(`cards.next().unwrap()` twice in the source; `none` models the panic on a
malformed hand). -/
def firstTwo (m : Nat) : Option (Nat × Nat) :=
  match bitNext m with
  | none => none
  | some (c1, m') =>
    match bitNext m' with
    | none => none
    | some (c2, _) => some (c1, c2)

namespace Game

/-- `Game::next_my`: scanner over the mover's board mask. -/
def next_my (g : Game) : Nat := g.my &&& PIECE_MASK

/-- `Game::next_other`: scanner over the other side's board mask. -/
def next_other (g : Game) : Nat := g.other &&& PIECE_MASK

/-- `Game::next_my_card`: scanner over the mover's held cards. -/
def next_my_card (g : Game) : Nat := cardMask g.cards

/-- `Game::next_other_card`: scanner over the other side's held cards
(`CardIter::new(self.cards.wrapping_shr(16))`). -/
def next_other_card (g : Game) : Nat := cardMask (g.cards >>> 16)

/-- `Game::next_to`: destinations reachable from `from` with `card`,
excluding squares occupied by the mover's own pieces
(`BitIter(self.my.andn(shifted))`). -/
def next_to (T : Tables) (g : Game) (frm card : Nat) : Nat :=
  andn32 g.my (T.shifted card frm)

/-- `Game::next_from`: candidate origins for destination `dst` with `card`:
`my_rev.andn(self.other.andn(shifted))` where `my_rev` is the board-reversed
mover mask, with bit 22 forced in when `dst` is the other side's king square. -/
def next_from (T : Tables) (g : Game) (dst card : Nat) : Nat :=
  let shifted := T.shiftedR card dst
  let my_rev := rev32 g.my >>> 7
  let my_rev := if dst = g.other >>> 25 then my_rev ||| 1 <<< 22 else my_rev
  andn32 my_rev (andn32 g.other shifted)

/-- `Game::count_moves`: per origin square, popcount of the combined two-card
destination word after masking out the mover's own pieces in both halves. -/
def count_moves (T : Tables) (g : Game) : Nat :=
  (bitsList g.next_my).foldl
    (fun total frm =>
      match firstTwo g.next_my_card with
      | none => total
      | some (c1, c2) =>
        let both := shiftedL T c1 frm ||| shiftedU T c2 frm
        let my := g.my ||| g.my <<< 32
        total + popCount (andn64 my both))
    0

/-- `Game::is_win`: some owned origin and held card reach the other king's
square, or the own king reaches the gate square (bit 22). -/
def is_win (T : Tables) (g : Game) : Bool :=
  (bitsList g.next_my).any fun frm =>
    match firstTwo g.next_my_card with
    | none => false
    | some (c1, c2) =>
      let both := T.shifted c1 frm ||| T.shifted c2 frm
      let other_king := (1 <<< 24) >>> (g.other >>> 25)
      (both &&& other_king != 0) ||
        (frm == g.my >>> 25 && both &&& (1 <<< 22) != 0)

/-- `Game::count_pieces`: popcount of the mover's board mask. -/
def count_pieces (g : Game) : Nat := popCount (g.my &&& PIECE_MASK)

/-- `Game::is_loss`: the other king sits on the gate sentinel square, or the
own king's bit is absent from the own board mask. -/
def is_loss (g : Game) : Bool :=
  g.other >>> 25 == 22 || g.my &&& (1 <<< (g.my >>> 25)) == 0

/-- `Game::is_other_loss`: the symmetric check. -/
def is_other_loss (g : Game) : Bool :=
  g.my >>> 25 == 22 || g.other &&& (1 <<< (g.other >>> 25)) == 0

end Game

/-- The 16-bit halves swap `my_cards.wrapping_shl(16) | my_cards.wrapping_shr(16)`
performed on a `u32`. -/
def swapHalves (x : Nat) : Nat := (x <<< 16) % 2 ^ 32 ||| x >>> 16

/-- The successor built by `GameIter::next` for one `(from, card, to)` triple
(lines 210-230 of `gen.rs`). -/
def mkMove (g : Game) (frm card dst : Nat) : Game :=
  let my_king := g.my >>> 25
  let to_other := (1 <<< 24) >>> dst
  let other := andn32 to_other g.other
  let my_cards := g.cards ^^^ (1 <<< card) ^^^ (1 <<< g.table)
  let cards := swapHalves my_cards
  let my0 := g.my ^^^ (1 <<< frm) ^^^ (1 <<< dst)
  let my := if frm = my_king then my0 &&& PIECE_MASK ||| dst <<< 25 else my0
  { my := other, other := my, cards := cards, table := card }

/-- The predecessor pair built by `GameBackIter::next` for one
`(to, card, from)` triple (lines 266-284 of `gen.rs`). -/
def mkBack (g : Game) (dst card frm : Nat) : Game × Nat :=
  let other_king := g.other >>> 25
  let cards0 := swapHalves g.cards
  let cards := cards0 ^^^ (1 <<< card) ^^^ (1 <<< g.table)
  let other0 := g.other ^^^ (1 <<< dst) ^^^ (1 <<< frm)
  let other := if dst = other_king then other0 &&& PIECE_MASK ||| frm <<< 25 else other0
  ({ my := other, other := g.my, cards := cards, table := card }, (1 <<< 24) >>> dst)

/-- The sequence of successors produced by repeatedly calling
`GameIter::next` from a cursor state `(from-mask, from_curr, card-mask,
card_curr, to-mask)`: yield from the destination scanner, else advance the
card, else advance the origin (resetting the card scanner), as in the source's
`while to_new.is_none()` loop.  An empty hand when a fresh card scanner is
polled is the source's `unwrap` panic; it ends the sequence here. -/
def iterListAux (T : Tables) (g : Game)
    (fromMask fromCurr cMask cardCurr toMask : Nat) : List Game :=
  match hto : bitNext toMask with
  | some (t, to') =>
    mkMove g fromCurr cardCurr t :: iterListAux T g fromMask fromCurr cMask cardCurr to'
  | none =>
    match hc : bitNext cMask with
    | some (c, card') =>
      iterListAux T g fromMask fromCurr card' c (g.next_to T fromCurr c)
    | none =>
      match hf : bitNext fromMask with
      | none => []
      | some (f, from') =>
        match hm : bitNext g.next_my_card with
        | none => []
        | some (c, card') =>
          iterListAux T g from' f card' c (g.next_to T f c)
termination_by (fromMask, cMask, toMask)
decreasing_by
  · apply Prod.Lex.right
    apply Prod.Lex.right
    simp only [bitNext] at hto
    split at hto
    · cases hto
    · cases hto
      exact Nat.lt_of_le_of_lt Nat.and_le_right
        (Nat.sub_lt (Nat.pos_of_ne_zero (by assumption)) (by decide))
  · apply Prod.Lex.right
    apply Prod.Lex.left
    simp only [bitNext] at hc
    split at hc
    · cases hc
    · cases hc
      exact Nat.lt_of_le_of_lt Nat.and_le_right
        (Nat.sub_lt (Nat.pos_of_ne_zero (by assumption)) (by decide))
  · apply Prod.Lex.left
    simp only [bitNext] at hf
    split at hf
    · cases hf
    · cases hf
      exact Nat.lt_of_le_of_lt Nat.and_le_right
        (Nat.sub_lt (Nat.pos_of_ne_zero (by assumption)) (by decide))

/-- `Game::forward`: prime the cursor (first origin, first card, its
destination scanner) and run the iterator.  A `None` from either `unwrap` in
`forward()` is a panic in the source; here it yields the empty sequence. -/
def forwardList (T : Tables) (g : Game) : List Game :=
  match bitNext g.next_my with
  | none => []
  | some (f, from') =>
    match bitNext g.next_my_card with
    | none => []
    | some (c, card') => iterListAux T g from' f card' c (g.next_to T f c)

/-- The sequence of `(predecessor, vacated-destination-mask)` pairs produced by
repeatedly calling `GameBackIter::next`; same cursor discipline as the forward
iterator, with the origin scanner always rebuilt from the recorded table card
(`self.game.next_from(self.to_curr, self.game.table)`). -/
def backListAux (T : Tables) (g : Game)
    (toMask toCurr cMask cardCurr fromMask : Nat) : List (Game × Nat) :=
  match hfr : bitNext fromMask with
  | some (f, from') =>
    mkBack g toCurr cardCurr f :: backListAux T g toMask toCurr cMask cardCurr from'
  | none =>
    match hc : bitNext cMask with
    | some (c, card') =>
      backListAux T g toMask toCurr card' c (g.next_from T toCurr g.table)
    | none =>
      match hto : bitNext toMask with
      | none => []
      | some (t, to') =>
        match hm : bitNext g.next_other_card with
        | none => []
        | some (c, card') =>
          backListAux T g to' t card' c (g.next_from T t g.table)
termination_by (toMask, cMask, fromMask)
decreasing_by
  · apply Prod.Lex.right
    apply Prod.Lex.right
    simp only [bitNext] at hfr
    split at hfr
    · cases hfr
    · cases hfr
      exact Nat.lt_of_le_of_lt Nat.and_le_right
        (Nat.sub_lt (Nat.pos_of_ne_zero (by assumption)) (by decide))
  · apply Prod.Lex.right
    apply Prod.Lex.left
    simp only [bitNext] at hc
    split at hc
    · cases hc
    · cases hc
      exact Nat.lt_of_le_of_lt Nat.and_le_right
        (Nat.sub_lt (Nat.pos_of_ne_zero (by assumption)) (by decide))
  · apply Prod.Lex.left
    simp only [bitNext] at hto
    split at hto
    · cases hto
    · cases hto
      exact Nat.lt_of_le_of_lt Nat.and_le_right
        (Nat.sub_lt (Nat.pos_of_ne_zero (by assumption)) (by decide))

/-- `Game::backward`: prime the cursor and run the retrograde iterator. -/
def backwardList (T : Tables) (g : Game) : List (Game × Nat) :=
  match bitNext g.next_other with
  | none => []
  | some (t, to') =>
    match bitNext g.next_other_card with
    | none => []
    | some (c, card') => backListAux T g to' t card' c (g.next_from T t g.table)

/-- The card invariant of spec §3: each side holds exactly two cards, one card
is on the table, and the five identities are pairwise distinct (all in the
16-wide card universe). -/
def CardsOk (cards table : Nat) : Prop :=
  ∃ a b c d : Nat, a < 16 ∧ b < 16 ∧ c < 16 ∧ d < 16 ∧ table < 16 ∧
    a ≠ b ∧ a ≠ c ∧ a ≠ d ∧ a ≠ table ∧ b ≠ c ∧ b ≠ d ∧ b ≠ table ∧
    c ≠ d ∧ c ≠ table ∧ d ≠ table ∧
    cards = (2 ^ a ||| 2 ^ b) ||| (2 ^ c ||| 2 ^ d) <<< 16

/-- The cursor state of `GameIter`: the borrowed `game` plus the three
scanners and the current origin/card (`from`, `from_curr`, `card`,
`card_curr`, `to`). -/
structure GameIterState where
  game : Game
  fromIter : Nat
  fromCurr : Nat
  cardIter : Nat
  cardCurr : Nat
  toIter : Nat
deriving DecidableEq

/-- One call of `GameIter::next` (lines 195–231 of `gen.rs`), as a function of
the cursor fields: yield from the destination scanner; on exhaustion advance
the card scanner, or the origin scanner (rebuilding the card scanner), then
retry.  An empty hand at `card_new.unwrap()` is the source's panic; it is
modelled as end-of-sequence. -/
def iterNextAux (T : Tables) (g : Game) (F fc CM cc TM : Nat) :
    Option (Game × GameIterState) :=
  match hto : bitNext TM with
  | some (t, to') => some (mkMove g fc cc t, ⟨g, F, fc, CM, cc, to'⟩)
  | none =>
    match hc : bitNext CM with
    | some (c, card') => iterNextAux T g F fc card' c (g.next_to T fc c)
    | none =>
      match hf : bitNext F with
      | none => none
      | some (f, from') =>
        match hm : bitNext g.next_my_card with
        | none => none
        | some (c, card') => iterNextAux T g from' f card' c (g.next_to T f c)
termination_by (F, CM)
decreasing_by
  · apply Prod.Lex.right
    simp only [bitNext] at hc
    split at hc
    · cases hc
    · cases hc
      exact Nat.lt_of_le_of_lt Nat.and_le_right
        (Nat.sub_lt (Nat.pos_of_ne_zero (by assumption)) (by decide))
  · apply Prod.Lex.left
    simp only [bitNext] at hf
    split at hf
    · cases hf
    · cases hf
      exact Nat.lt_of_le_of_lt Nat.and_le_right
        (Nat.sub_lt (Nat.pos_of_ne_zero (by assumption)) (by decide))

/-- `GameIter::next` on a cursor state. -/
def GameIterState.next (T : Tables) (s : GameIterState) : Option (Game × GameIterState) :=
  iterNextAux T s.game s.fromIter s.fromCurr s.cardIter s.cardCurr s.toIter

/-- `Game::forward`: the initial cursor state (`None` models the panic of the
two eager `unwrap`s on an empty piece mask or hand). -/
def forwardInit (T : Tables) (g : Game) : Option GameIterState :=
  match bitNext g.next_my with
  | none => none
  | some (f, from') =>
    match bitNext g.next_my_card with
    | none => none
    | some (c, card') => some ⟨g, from', f, card', c, g.next_to T f c⟩

/-- `ExactSizeIterator::len` for `GameIter`: `self.game.count_moves()`. -/
def iterLen (T : Tables) (s : GameIterState) : Nat := Game.count_moves T s.game

/-- `k` calls of `next()` (stopping at exhaustion). -/
def consume (T : Tables) : Nat → GameIterState → GameIterState
  | 0, s => s
  | k + 1, s =>
    match s.next T with
    | none => s
    | some (_, s') => consume T k s'

/-- All moves of origin `f` over the cards still in the scanner mask `cm`:
the closed form of the inner two loops of the forward enumerator. -/
def movesFor (T : Tables) (g : Game) (f cm : Nat) : List Game :=
  (bitsList cm).flatMap fun c => (bitsList (g.next_to T f c)).map (mkMove g f c)

/-- All retrograde pairs for destination `t` over the cards in `cm`; the
origin scanner always comes from the recorded table card. -/
def backsFor (T : Tables) (g : Game) (t cm : Nat) : List (Game × Nat) :=
  (bitsList cm).flatMap fun c => (bitsList (g.next_from T t g.table)).map (mkBack g t c)

/-! ### Concrete fixtures used to instantiate the theorems -/

/-- A minimal geometry table meeting the collaborator contract: card 0 moves a
piece from square 0 to square 5; every other cell is empty. -/
def Tw : Tables where
  shifted c f := if c = 0 ∧ f = 0 then 1 <<< 5 else 0
  shiftedR c t := if c = 0 ∧ t = 5 then 1 else 0

/-- A minimal well-formed position: each side has only its king (square 0 in
its own frame); hands are cards `{0,1}` and `{2,3}`, card 4 on the table. -/
def gW : Game where
  my := 1
  other := 1
  cards := 3 ||| 12 <<< 16
  table := 4

/-- Like `gW` but the opponent piece sits on the mover's destination square, so
the single forward move is a capture. -/
def gCap : Game where
  my := 1
  other := (1 <<< 19) ||| 19 <<< 25
  cards := 3 ||| 12 <<< 16
  table := 4

/-- A position with a full starting row: king on square 2 plus four pawns. -/
def gRow : Game where
  my := 31 ||| 2 <<< 25
  other := 1
  cards := 3 ||| 12 <<< 16
  table := 4

/-! ### Bit-scanner lemmas -/

theorem bitNext_lt {m b m' : Nat} (h : bitNext m = some (b, m')) : m' < m := by
  simp only [bitNext] at h
  split at h
  · cases h
  · cases h
    exact Nat.lt_of_le_of_lt Nat.and_le_right
      (Nat.sub_lt (Nat.pos_of_ne_zero (by assumption)) (by decide))

theorem tz_go_mono : ∀ f1 : Nat, ∀ {f2 n : Nat}, n ≤ f1 → n ≤ f2 → tz.go f1 n = tz.go f2 n := by
  intro f1
  induction f1 with
  | zero =>
    intro f2 n h1 _
    have : n = 0 := Nat.le_zero.mp h1
    subst this
    cases f2 <;> simp [tz.go]
  | succ f1 ih =>
    intro f2 n h1 h2
    match f2 with
    | 0 =>
      have : n = 0 := Nat.le_zero.mp h2
      subst this
      simp [tz.go]
    | f2 + 1 =>
      simp only [tz.go]
      rcases eq_or_ne n 0 with rfl | hn
      · simp
      · by_cases ho : n % 2 = 1
        · simp [hn, ho]
        · simp only [hn, ho, if_false]
          have hlt : n / 2 < n := Nat.div_lt_self (Nat.pos_of_ne_zero hn) (by decide)
          rw [@ih f2 (n / 2) (by omega) (by omega)]

theorem tz_unfold (n : Nat) :
    tz n = if n = 0 then 0 else if n % 2 = 1 then 0 else tz (n / 2) + 1 := by
  show tz.go n n = _
  rcases eq_or_ne n 0 with rfl | hn
  · simp [tz.go]
  · match n, hn with
    | n + 1, _ =>
      simp only [tz.go]
      by_cases ho : (n + 1) % 2 = 1
      · simp [ho]
      · simp only [ho, if_false, if_neg (Nat.succ_ne_zero n)]
        have : (n + 1) / 2 ≤ n := by omega
        rw [tz_go_mono n this (Nat.le_refl _)]
        rfl

theorem popCount_go_mono : ∀ f1 : Nat, ∀ {f2 n : Nat}, n ≤ f1 → n ≤ f2 →
    popCount.go f1 n = popCount.go f2 n := by
  intro f1
  induction f1 with
  | zero =>
    intro f2 n h1 _
    have : n = 0 := Nat.le_zero.mp h1
    subst this
    cases f2 <;> simp [popCount.go]
  | succ f1 ih =>
    intro f2 n h1 h2
    match f2 with
    | 0 =>
      have : n = 0 := Nat.le_zero.mp h2
      subst this
      simp [popCount.go]
    | f2 + 1 =>
      simp only [popCount.go]
      rcases eq_or_ne n 0 with rfl | hn
      · simp
      · simp only [hn, if_false]
        have hlt : n / 2 < n := Nat.div_lt_self (Nat.pos_of_ne_zero hn) (by decide)
        rw [@ih f2 (n / 2) (by omega) (by omega)]

theorem popCount_unfold (n : Nat) :
    popCount n = if n = 0 then 0 else n % 2 + popCount (n / 2) := by
  show popCount.go n n = _
  rcases eq_or_ne n 0 with rfl | hn
  · simp [popCount.go]
  · match n, hn with
    | n + 1, _ =>
      simp only [popCount.go, if_neg (Nat.succ_ne_zero n)]
      have : (n + 1) / 2 ≤ n := by omega
      rw [popCount_go_mono n this (Nat.le_refl _)]
      rfl

theorem bitsList_go_mono : ∀ f1 : Nat, ∀ {f2 m : Nat}, m ≤ f1 → m ≤ f2 →
    bitsList.go f1 m = bitsList.go f2 m := by
  intro f1
  induction f1 with
  | zero =>
    intro f2 m h1 _
    have : m = 0 := Nat.le_zero.mp h1
    subst this
    cases f2 <;> simp [bitsList.go, bitNext]
  | succ f1 ih =>
    intro f2 m h1 h2
    match f2 with
    | 0 =>
      have : m = 0 := Nat.le_zero.mp h2
      subst this
      simp [bitsList.go, bitNext]
    | f2 + 1 =>
      simp only [bitsList.go]
      cases hb : bitNext m with
      | none => rfl
      | some p =>
        obtain ⟨b, m'⟩ := p
        have hlt : m' < m := bitNext_lt hb
        show b :: bitsList.go f1 m' = b :: bitsList.go f2 m'
        rw [@ih f2 m' (by omega) (by omega)]

theorem bitsList_unfold (m : Nat) :
    bitsList m = (match bitNext m with
      | none => []
      | some (b, m') => b :: bitsList m') := by
  show bitsList.go m m = _
  rcases eq_or_ne m 0 with rfl | hm
  · simp [bitsList.go, bitNext]
  · match m, hm with
    | m + 1, _ =>
      simp only [bitsList.go]
      cases hb : bitNext (m + 1) with
      | none => rfl
      | some p =>
        obtain ⟨b, m'⟩ := p
        have hlt : m' < m + 1 := bitNext_lt hb
        show b :: bitsList.go m m' = b :: bitsList m'
        rw [@bitsList_go_mono m m' m' (by omega) (Nat.le_refl _)]
        rfl

theorem bitNext_zero : bitNext 0 = none := rfl

theorem bitNext_of_ne {m : Nat} (h : m ≠ 0) : bitNext m = some (tz m, m &&& (m - 1)) := by
  simp [bitNext, h]

theorem tz_testBit : ∀ {m : Nat}, m ≠ 0 → m.testBit (tz m) = true := by
  intro m
  induction m using Nat.strong_induction_on with
  | _ m ih =>
    intro h
    rw [tz_unfold]
    simp only [h, if_false]
    by_cases ho : m % 2 = 1
    · simp [ho]
    · have h2 : m / 2 ≠ 0 := by omega
      simp only [ho, if_false]
      rw [Nat.testBit_add_one]
      exact ih (m / 2) (Nat.div_lt_self (Nat.pos_of_ne_zero h) (by decide)) h2

theorem tz_below : ∀ {m : Nat}, m ≠ 0 → ∀ {i}, i < tz m → m.testBit i = false := by
  intro m
  induction m using Nat.strong_induction_on with
  | _ m ih =>
    intro h i hi
    rw [tz_unfold] at hi
    simp only [h, if_false] at hi
    by_cases ho : m % 2 = 1
    · simp [ho] at hi
    · have h2 : m / 2 ≠ 0 := by omega
      simp only [ho, if_false] at hi
      match i with
      | 0 => simpa [Nat.testBit_zero] using ho
      | j + 1 =>
        rw [Nat.testBit_add_one]
        exact ih (m / 2) (Nat.div_lt_self (Nat.pos_of_ne_zero h) (by decide)) h2
          (Nat.lt_of_succ_lt_succ hi)

theorem tz_eq {m k : Nat} (h1 : m.testBit k = true) (h2 : ∀ i, i < k → m.testBit i = false) :
    tz m = k := by
  have hm : m ≠ 0 := by
    intro h0
    rw [h0, Nat.zero_testBit] at h1
    cases h1
  rcases Nat.lt_trichotomy (tz m) k with h | h | h
  · have := h2 _ h
    rw [tz_testBit hm] at this
    cases this
  · exact h
  · have := tz_below hm h
    rw [h1] at this
    cases this

theorem tz_two_pow (k : Nat) : tz (2 ^ k) = k :=
  tz_eq Nat.testBit_two_pow_self fun i hi => Nat.testBit_two_pow_of_ne (Nat.ne_of_gt hi)

theorem tz_odd {m : Nat} (h : m % 2 = 1) : tz m = 0 := by
  rw [tz_unfold]
  have : m ≠ 0 := by omega
  simp [this, h]

theorem tz_even {m : Nat} (h0 : m ≠ 0) (h : m % 2 = 0) : tz m = tz (m / 2) + 1 := by
  rw [tz_unfold]
  simp [h0, h]

theorem one_shiftLeft_eq (n : Nat) : 1 <<< n = 2 ^ n := by
  rw [Nat.shiftLeft_eq, Nat.one_mul]

theorem testBit_one_shiftLeft (n j : Nat) : (1 <<< n).testBit j = decide (n = j) := by
  rw [one_shiftLeft_eq, Nat.testBit_two_pow]

/-- The bits of `m - 1`: the trailing zeros of `m` become ones, the lowest set
bit becomes zero, everything above is unchanged. -/
theorem testBit_pred : ∀ {m : Nat}, m ≠ 0 → ∀ i, (m - 1).testBit i =
    (if i < tz m then true else if i = tz m then false else m.testBit i) := by
  intro m
  induction m using Nat.strong_induction_on with
  | _ m ih =>
    intro h i
    rcases Nat.mod_two_eq_zero_or_one m with ho | ho
    · have h2 : m / 2 ≠ 0 := by omega
      rw [tz_even h ho]
      match i with
      | 0 =>
        have : (m - 1) % 2 = 1 := by omega
        simp [Nat.testBit_zero, this]
      | j + 1 =>
        rw [← Nat.testBit_div_two]
        have hd : (m - 1) / 2 = m / 2 - 1 := by omega
        rw [hd, ih (m / 2) (Nat.div_lt_self (Nat.pos_of_ne_zero h) (by decide)) h2 j]
        rw [← Nat.testBit_div_two]
        rcases Nat.lt_trichotomy j (tz (m / 2)) with hj | hj | hj
        · simp [hj, Nat.lt_succ_of_lt, Nat.succ_lt_succ hj]
        · simp [hj]
        · have h1 : ¬ j < tz (m / 2) := by omega
          have h2' : ¬ j = tz (m / 2) := by omega
          have h3 : ¬ j + 1 < tz (m / 2) + 1 := by omega
          have h4 : ¬ j + 1 = tz (m / 2) + 1 := by omega
          simp [h1, h2', h3, h4]
    · rw [tz_odd ho]
      match i with
      | 0 =>
        have : (m - 1) % 2 = 0 := by omega
        simp [Nat.testBit_zero, this]
      | j + 1 =>
        rw [← Nat.testBit_div_two, ← Nat.testBit_div_two]
        have hd : (m - 1) / 2 = m / 2 := by omega
        simp [hd]

theorem and_pred_eq {m : Nat} (h : m ≠ 0) : m &&& (m - 1) = m ^^^ 1 <<< tz m := by
  apply Nat.eq_of_testBit_eq
  intro i
  rw [Nat.testBit_and, Nat.testBit_xor, testBit_one_shiftLeft, testBit_pred h i]
  rcases Nat.lt_trichotomy i (tz m) with hi | hi | hi
  · simp [hi, tz_below h hi, Nat.ne_of_gt hi]
  · subst hi
    simp [tz_testBit h]
  · simp [Nat.not_lt_of_gt hi, Nat.ne_of_gt hi, Nat.ne_of_lt hi]

theorem bitsList_zero : bitsList 0 = [] := rfl

theorem bitsList_of_ne {m : Nat} (h : m ≠ 0) :
    bitsList m = tz m :: bitsList (m ^^^ 1 <<< tz m) := by
  rw [bitsList_unfold, bitNext_of_ne h, and_pred_eq h]

theorem bitsList_step {m : Nat} (h : m ≠ 0) :
    bitsList m = tz m :: bitsList (m &&& (m - 1)) := by
  rw [bitsList_unfold, bitNext_of_ne h]

theorem and_pred_lt {m : Nat} (h : m ≠ 0) : m &&& (m - 1) < m :=
  Nat.lt_of_le_of_lt Nat.and_le_right (Nat.sub_lt (Nat.pos_of_ne_zero h) (by decide))

/-! ### popCount lemmas -/

theorem popCount_zero : popCount 0 = 0 := rfl

theorem popCount_of_ne {m : Nat} (h : m ≠ 0) : popCount m = m % 2 + popCount (m / 2) := by
  rw [popCount_unfold]
  simp [h]

/-- `popCount` counts the set bits among the first `w`, for numbers below `2^w`. -/
theorem popCount_eq_countP : ∀ w m, m < 2 ^ w →
    popCount m = (List.range w).countP (fun i => m.testBit i) := by
  intro w
  induction w with
  | zero =>
    intro m hm
    have : m = 0 := by simpa using hm
    subst this
    simp [popCount_zero]
  | succ w ih =>
    intro m hm
    rcases eq_or_ne m 0 with rfl | h
    · simp [popCount_zero, Nat.zero_testBit, List.countP_eq_zero]
    · rw [popCount_of_ne h, List.range_succ_eq_map, List.countP_cons, List.countP_map]
      have hdiv : m / 2 < 2 ^ w := by
        rw [Nat.div_lt_iff_lt_mul (by decide)]
        calc m < 2 ^ (w + 1) := hm
        _ = 2 ^ w * 2 := by rw [Nat.pow_succ]
      rw [ih (m / 2) hdiv]
      have hc : (List.range w).countP ((fun i => m.testBit i) ∘ Nat.succ)
          = (List.range w).countP (fun i => (m / 2).testBit i) := by
        apply List.countP_congr
        intro i _
        simp [Function.comp, Nat.testBit_succ]
      rw [hc, Nat.testBit_zero]
      rcases Nat.mod_two_eq_zero_or_one m with h2 | h2 <;> simp [h2] <;> omega

/-- Counting a predicate that differs from another at exactly one index. -/
theorem countP_flip : ∀ (w k : Nat), k < w → ∀ (p q : Nat → Bool),
    (∀ i, i ≠ k → p i = q i) → p k = true → q k = false →
    (List.range w).countP p = (List.range w).countP q + 1 := by
  intro w
  induction w with
  | zero => intro k hk; omega
  | succ w ih =>
    intro k hk p q hne hp hq
    rw [List.range_succ, List.countP_append, List.countP_append]
    rcases eq_or_ne k w with rfl | hkw
    · have : (List.range k).countP p = (List.range k).countP q := by
        apply List.countP_congr
        intro i hi
        rw [List.mem_range] at hi
        rw [hne i (Nat.ne_of_lt hi)]
      simp [this, hp, hq, List.countP_cons]
    · have hkw' : k < w := by omega
      rw [ih k hkw' p q hne hp hq]
      have : p w = q w := hne w (Ne.symm hkw)
      simp [List.countP_cons, this]
      omega

theorem popCount_clear_bit {m k : Nat} (h : m.testBit k = true) :
    popCount m = popCount (m ^^^ 1 <<< k) + 1 := by
  obtain ⟨w, hw, hkw⟩ : ∃ w, m < 2 ^ w ∧ k < w := by
    refine ⟨m + k + 1, ?_, by omega⟩
    calc m < 2 ^ m := Nat.lt_two_pow m
    _ ≤ 2 ^ (m + k + 1) := Nat.pow_le_pow_right (by decide) (by omega)
  have hx : m ^^^ 1 <<< k < 2 ^ w := by
    apply Nat.xor_lt_two_pow hw
    rw [one_shiftLeft_eq]
    exact Nat.pow_lt_pow_right (by decide) hkw
  rw [popCount_eq_countP w m hw, popCount_eq_countP w _ hx]
  apply countP_flip w k hkw
  · intro i hik
    rw [Nat.testBit_xor, testBit_one_shiftLeft]
    simp [Ne.symm hik]
  · exact h
  · rw [Nat.testBit_xor, testBit_one_shiftLeft, h]
    simp

theorem length_bitsList : ∀ m, (bitsList m).length = popCount m := by
  intro m
  induction m using Nat.strong_induction_on with
  | _ m ih =>
    rcases eq_or_ne m 0 with rfl | h
    · simp [bitsList_zero, popCount_zero]
    · rw [bitsList_step h, List.length_cons, ih _ (and_pred_lt h),
        and_pred_eq h, popCount_clear_bit (tz_testBit h)]

theorem mem_bitsList : ∀ m i, i ∈ bitsList m ↔ m.testBit i = true := by
  intro m
  induction m using Nat.strong_induction_on with
  | _ m ih =>
    intro i
    rcases eq_or_ne m 0 with rfl | h
    · simp [bitsList_zero, Nat.zero_testBit]
    · rw [bitsList_step h, List.mem_cons, and_pred_eq h, ih _ (by rw [← and_pred_eq h]; exact and_pred_lt h)]
      rw [Nat.testBit_xor, testBit_one_shiftLeft]
      constructor
      · rintro (rfl | hmem)
        · exact tz_testBit h
        · rcases eq_or_ne (tz m) i with rfl | hne
          · exact tz_testBit h
          · simpa [hne] using hmem
      · intro hbit
        rcases eq_or_ne (tz m) i with rfl | hne
        · exact Or.inl rfl
        · refine Or.inr ?_
          simp [hne, hbit]

theorem bitsList_two_pow (k : Nat) : bitsList (2 ^ k) = [k] := by
  rw [bitsList_step ((Nat.two_pow_pos k).ne'),
    tz_two_pow, and_pred_eq ((Nat.two_pow_pos k).ne'),
    tz_two_pow, one_shiftLeft_eq, Nat.xor_self, bitsList_zero]

theorem two_pow_or_two_pow_ne {a b : Nat} (hab : a ≠ b) : (2 ^ a ||| 2 ^ b) ^^^ 2 ^ a = 2 ^ b := by
  apply Nat.eq_of_testBit_eq
  intro i
  rw [Nat.testBit_xor, Nat.testBit_or, Nat.testBit_two_pow, Nat.testBit_two_pow]
  rcases eq_or_ne a i with rfl | hai
  · simp [Ne.symm hab]
  · simp [hai]

theorem or_two_pow_ne_zero (a b : Nat) : (2 : Nat) ^ a ||| 2 ^ b ≠ 0 := by
  intro h0
  have := congrArg (fun x => x.testBit a) h0
  simp [Nat.testBit_two_pow_self, Nat.zero_testBit] at this

theorem tz_pair {a b : Nat} (hab : a < b) : tz (2 ^ a ||| 2 ^ b) = a := by
  apply tz_eq
  · simp [Nat.testBit_two_pow_self]
  · intro i hi
    rw [Nat.testBit_or, Nat.testBit_two_pow, Nat.testBit_two_pow]
    have h1 : a ≠ i := Nat.ne_of_gt hi
    have h2 : b ≠ i := by omega
    simp [h1, h2]

theorem bitsList_pair {a b : Nat} (hab : a < b) : bitsList (2 ^ a ||| 2 ^ b) = [a, b] := by
  rw [bitsList_step (or_two_pow_ne_zero a b), tz_pair hab, and_pred_eq (or_two_pow_ne_zero a b),
    tz_pair hab, one_shiftLeft_eq, two_pow_or_two_pow_ne (Nat.ne_of_lt hab), bitsList_two_pow]

theorem bitNext_none_iff {m : Nat} : bitNext m = none ↔ m = 0 := by
  constructor
  · intro h
    by_contra hne
    rw [bitNext_of_ne hne] at h
    cases h
  · rintro rfl
    rfl

theorem bitsList_of_bitNext {m b m' : Nat} (h : bitNext m = some (b, m')) :
    bitsList m = b :: bitsList m' := by
  rw [bitsList_unfold, h]

theorem flatMap_const_nil {α β : Type} (l : List α) :
    (l.flatMap fun _ => ([] : List β)) = [] := by
  induction l with
  | nil => rfl
  | cons a l ih => simp [ih]

theorem iterStep1 (T : Tables) (g : Game) {F fc CM cc TM t to' : Nat}
    (hto : bitNext TM = some (t, to')) :
    iterListAux T g F fc CM cc TM
      = mkMove g fc cc t :: iterListAux T g F fc CM cc to' := by
  rw [iterListAux, hto]

theorem iterStep2 (T : Tables) (g : Game) {F fc CM cc TM c card' : Nat}
    (hto : bitNext TM = none) (hc : bitNext CM = some (c, card')) :
    iterListAux T g F fc CM cc TM
      = iterListAux T g F fc card' c (g.next_to T fc c) := by
  rw [iterListAux, hto, hc]

theorem iterStep3 (T : Tables) (g : Game) {F fc CM cc TM : Nat}
    (hto : bitNext TM = none) (hc : bitNext CM = none) (hf : bitNext F = none) :
    iterListAux T g F fc CM cc TM = [] := by
  rw [iterListAux, hto, hc, hf]

theorem iterStep4 (T : Tables) (g : Game) {F fc CM cc TM f from' : Nat}
    (hto : bitNext TM = none) (hc : bitNext CM = none)
    (hf : bitNext F = some (f, from')) (hm : bitNext g.next_my_card = none) :
    iterListAux T g F fc CM cc TM = [] := by
  rw [iterListAux, hto, hc, hf, hm]

theorem iterStep5 (T : Tables) (g : Game) {F fc CM cc TM f from' c card' : Nat}
    (hto : bitNext TM = none) (hc : bitNext CM = none)
    (hf : bitNext F = some (f, from')) (hm : bitNext g.next_my_card = some (c, card')) :
    iterListAux T g F fc CM cc TM
      = iterListAux T g from' f card' c (g.next_to T f c) := by
  rw [iterListAux, hto, hc, hf, hm]

theorem iterListAux_eq (T : Tables) (g : Game) (F fc CM cc TM : Nat) :
    iterListAux T g F fc CM cc TM =
      (bitsList TM).map (mkMove g fc cc) ++ movesFor T g fc CM
        ++ (bitsList F).flatMap (fun f => movesFor T g f g.next_my_card) := by
  induction F, fc, CM, cc, TM using iterListAux.induct T g with
  | case1 F fc CM cc TM t to' hto ih =>
    rw [iterStep1 T g hto, ih, bitsList_of_bitNext hto]
    simp
  | case2 F fc CM cc TM hto c card' hc ih =>
    rw [iterStep2 T g hto hc, ih, bitNext_none_iff.mp hto]
    simp [movesFor, bitsList_of_bitNext hc, bitsList_zero, List.append_assoc]
  | case3 F fc CM cc TM hto hc hf =>
    rw [iterStep3 T g hto hc hf, bitNext_none_iff.mp hto, bitNext_none_iff.mp hc,
      bitNext_none_iff.mp hf]
    simp [movesFor, bitsList_zero]
  | case4 F fc CM cc TM hto hc f from' hf hm =>
    rw [iterStep4 T g hto hc hf hm, bitNext_none_iff.mp hto, bitNext_none_iff.mp hc,
      bitsList_of_bitNext hf, bitNext_none_iff.mp hm]
    simp [movesFor, bitsList_zero, flatMap_const_nil]
  | case5 F fc CM cc TM hto hc f from' hf c card' hm ih =>
    rw [iterStep5 T g hto hc hf hm, ih, bitNext_none_iff.mp hto, bitNext_none_iff.mp hc,
      bitsList_of_bitNext hf]
    simp [movesFor, bitsList_of_bitNext hm, bitsList_zero, List.append_assoc]

theorem forwardList_of_no_piece (T : Tables) (g : Game)
    (hf : bitNext g.next_my = none) : forwardList T g = [] := by
  rw [forwardList, hf]

theorem forwardList_of_no_card (T : Tables) (g : Game) {f from' : Nat}
    (hf : bitNext g.next_my = some (f, from'))
    (hm : bitNext g.next_my_card = none) : forwardList T g = [] := by
  rw [forwardList, hf, hm]

theorem forwardList_of_some (T : Tables) (g : Game) {f from' c card' : Nat}
    (hf : bitNext g.next_my = some (f, from'))
    (hm : bitNext g.next_my_card = some (c, card')) :
    forwardList T g = iterListAux T g from' f card' c (g.next_to T f c) := by
  rw [forwardList, hf, hm]

theorem forwardList_eq (T : Tables) (g : Game) :
    forwardList T g = (bitsList g.next_my).flatMap fun f => movesFor T g f g.next_my_card := by
  cases hf : bitNext g.next_my with
  | none =>
    rw [forwardList_of_no_piece T g hf, bitNext_none_iff.mp hf, bitsList_zero]
    rfl
  | some p =>
    obtain ⟨f, from'⟩ := p
    cases hm : bitNext g.next_my_card with
    | none =>
      rw [forwardList_of_no_card T g hf hm, bitsList_of_bitNext hf, bitNext_none_iff.mp hm]
      simp [movesFor, bitsList_zero, flatMap_const_nil]
    | some q =>
      obtain ⟨c, card'⟩ := q
      rw [forwardList_of_some T g hf hm, iterListAux_eq, bitsList_of_bitNext hf]
      simp [movesFor, bitsList_of_bitNext hm, List.append_assoc]

theorem backStep1 (T : Tables) (g : Game) {TM tc CM cc FM f from' : Nat}
    (hfr : bitNext FM = some (f, from')) :
    backListAux T g TM tc CM cc FM
      = mkBack g tc cc f :: backListAux T g TM tc CM cc from' := by
  rw [backListAux, hfr]

theorem backStep2 (T : Tables) (g : Game) {TM tc CM cc FM c card' : Nat}
    (hfr : bitNext FM = none) (hc : bitNext CM = some (c, card')) :
    backListAux T g TM tc CM cc FM
      = backListAux T g TM tc card' c (g.next_from T tc g.table) := by
  rw [backListAux, hfr, hc]

theorem backStep3 (T : Tables) (g : Game) {TM tc CM cc FM : Nat}
    (hfr : bitNext FM = none) (hc : bitNext CM = none) (hto : bitNext TM = none) :
    backListAux T g TM tc CM cc FM = [] := by
  rw [backListAux, hfr, hc, hto]

theorem backStep4 (T : Tables) (g : Game) {TM tc CM cc FM t to' : Nat}
    (hfr : bitNext FM = none) (hc : bitNext CM = none)
    (hto : bitNext TM = some (t, to')) (hm : bitNext g.next_other_card = none) :
    backListAux T g TM tc CM cc FM = [] := by
  rw [backListAux, hfr, hc, hto, hm]

theorem backStep5 (T : Tables) (g : Game) {TM tc CM cc FM t to' c card' : Nat}
    (hfr : bitNext FM = none) (hc : bitNext CM = none)
    (hto : bitNext TM = some (t, to')) (hm : bitNext g.next_other_card = some (c, card')) :
    backListAux T g TM tc CM cc FM
      = backListAux T g to' t card' c (g.next_from T t g.table) := by
  rw [backListAux, hfr, hc, hto, hm]

theorem backListAux_eq (T : Tables) (g : Game) (TM tc CM cc FM : Nat) :
    backListAux T g TM tc CM cc FM =
      (bitsList FM).map (mkBack g tc cc) ++ backsFor T g tc CM
        ++ (bitsList TM).flatMap (fun t => backsFor T g t g.next_other_card) := by
  induction TM, tc, CM, cc, FM using backListAux.induct T g with
  | case1 TM tc CM cc FM f from' hfr ih =>
    rw [backStep1 T g hfr, ih, bitsList_of_bitNext hfr]
    simp
  | case2 TM tc CM cc FM hfr c card' hc ih =>
    rw [backStep2 T g hfr hc, ih, bitNext_none_iff.mp hfr]
    simp [backsFor, bitsList_of_bitNext hc, bitsList_zero, List.append_assoc]
  | case3 TM tc CM cc FM hfr hc hto =>
    rw [backStep3 T g hfr hc hto, bitNext_none_iff.mp hfr, bitNext_none_iff.mp hc,
      bitNext_none_iff.mp hto]
    simp [backsFor, bitsList_zero]
  | case4 TM tc CM cc FM hfr hc t to' hto hm =>
    rw [backStep4 T g hfr hc hto hm, bitNext_none_iff.mp hfr, bitNext_none_iff.mp hc,
      bitsList_of_bitNext hto, bitNext_none_iff.mp hm]
    simp [backsFor, bitsList_zero, flatMap_const_nil]
  | case5 TM tc CM cc FM hfr hc t to' hto c card' hm ih =>
    rw [backStep5 T g hfr hc hto hm, ih, bitNext_none_iff.mp hfr, bitNext_none_iff.mp hc,
      bitsList_of_bitNext hto]
    simp [backsFor, bitsList_of_bitNext hm, bitsList_zero, List.append_assoc]

theorem backwardList_of_no_piece (T : Tables) (g : Game)
    (ht : bitNext g.next_other = none) : backwardList T g = [] := by
  rw [backwardList, ht]

theorem backwardList_of_no_card (T : Tables) (g : Game) {t to' : Nat}
    (ht : bitNext g.next_other = some (t, to'))
    (hm : bitNext g.next_other_card = none) : backwardList T g = [] := by
  rw [backwardList, ht, hm]

theorem backwardList_of_some (T : Tables) (g : Game) {t to' c card' : Nat}
    (ht : bitNext g.next_other = some (t, to'))
    (hm : bitNext g.next_other_card = some (c, card')) :
    backwardList T g = backListAux T g to' t card' c (g.next_from T t g.table) := by
  rw [backwardList, ht, hm]

theorem backwardList_eq (T : Tables) (g : Game) :
    backwardList T g
      = (bitsList g.next_other).flatMap fun t => backsFor T g t g.next_other_card := by
  cases ht : bitNext g.next_other with
  | none =>
    rw [backwardList_of_no_piece T g ht, bitNext_none_iff.mp ht, bitsList_zero]
    rfl
  | some p =>
    obtain ⟨t, to'⟩ := p
    cases hm : bitNext g.next_other_card with
    | none =>
      rw [backwardList_of_no_card T g ht hm, bitsList_of_bitNext ht, bitNext_none_iff.mp hm]
      simp [backsFor, bitsList_zero, flatMap_const_nil]
    | some q =>
      obtain ⟨c, card'⟩ := q
      rw [backwardList_of_some T g ht hm, backListAux_eq, bitsList_of_bitNext ht]
      simp [backsFor, bitsList_of_bitNext hm, List.append_assoc]

/-! ### The 64-bit two-cards-at-once popcount trick -/

theorem length_flatMap_sum {α β : Type} (l : List α) (f : α → List β) :
    (l.flatMap f).length = (l.map fun a => (f a).length).sum := by
  induction l with
  | nil => rfl
  | cons a l ih => simp [ih]

theorem foldl_add_map {α : Type} (h : α → Nat) (l : List α) (a : Nat) :
    l.foldl (fun t x => t + h x) a = a + (l.map h).sum := by
  induction l generalizing a with
  | nil => simp
  | cons x l ih => simp [ih, Nat.add_assoc]

theorem andn32_lt {a b : Nat} (hb : b < 2 ^ 32) : andn32 a b < 2 ^ 32 :=
  Nat.lt_of_le_of_lt Nat.and_le_right hb

theorem shiftLeft32_lt {b : Nat} (hb : b < 2 ^ 32) : b <<< 32 < 2 ^ 64 := by
  rw [Nat.shiftLeft_eq]
  calc b * 2 ^ 32 < 2 ^ 32 * 2 ^ 32 := by
        exact Nat.mul_lt_mul_of_lt_of_le hb (Nat.le_refl _) (by decide)
  _ = 2 ^ 64 := by decide

theorem popCount_or_high {a b : Nat} (ha : a < 2 ^ 32) (hb : b < 2 ^ 32) :
    popCount (a ||| b <<< 32) = popCount a + popCount b := by
  have hor : a ||| b <<< 32 < 2 ^ 64 :=
    Nat.or_lt_two_pow (Nat.lt_of_lt_of_le ha (by decide)) (shiftLeft32_lt hb)
  rw [popCount_eq_countP 64 _ hor, popCount_eq_countP 32 a ha, popCount_eq_countP 32 b hb]
  have h64 : (List.range 64) = List.range 32 ++ (List.range 32).map (32 + ·) :=
    List.range_add 32 32
  rw [h64, List.countP_append, List.countP_map]
  congr 1
  · apply List.countP_congr
    intro i hi
    rw [List.mem_range] at hi
    rw [Nat.testBit_or, Nat.testBit_shiftLeft]
    have : ¬ 32 ≤ i := by omega
    simp [this]
  · apply List.countP_congr
    intro j _
    have h1 : a.testBit (32 + j) = false :=
      Nat.testBit_lt_two_pow (Nat.lt_of_lt_of_le ha (Nat.pow_le_pow_right (by decide) (by omega)))
    simp [Function.comp, Nat.testBit_or, Nat.testBit_shiftLeft, h1,
      Nat.add_sub_cancel_left, Nat.le_add_right]

theorem andn64_split {m s1 s2 : Nat} (hm : m < 2 ^ 32) (h1 : s1 < 2 ^ 32) (h2 : s2 < 2 ^ 32) :
    andn64 (m ||| m <<< 32) (s1 ||| s2 <<< 32) = andn32 m s1 ||| (andn32 m s2) <<< 32 := by
  apply Nat.eq_of_testBit_eq
  intro i
  simp only [andn64, andn32, mask64, mask32, Nat.testBit_and, Nat.testBit_xor,
    Nat.testBit_or, Nat.testBit_shiftLeft, Nat.testBit_two_pow_sub_one]
  by_cases hi : i < 32
  · have hnle : ¬ 32 ≤ i := by omega
    have h64 : i < 64 := by omega
    simp [hnle, hi, h64]
  · have hle : 32 ≤ i := by omega
    have hmi : m.testBit i = false :=
      Nat.testBit_lt_two_pow (Nat.lt_of_lt_of_le hm (Nat.pow_le_pow_right (by decide) hle))
    by_cases h64 : i < 64
    · have hsub : i - 32 < 32 := by omega
      have hs1 : s1.testBit i = false :=
        Nat.testBit_lt_two_pow (Nat.lt_of_lt_of_le h1 (Nat.pow_le_pow_right (by decide) hle))
      simp [hle, hmi, h64, hsub, hs1, hi]
    · have hs1 : s1.testBit i = false :=
        Nat.testBit_lt_two_pow (Nat.lt_of_lt_of_le h1 (Nat.pow_le_pow_right (by decide) hle))
      have hs2 : s2.testBit (i - 32) = false :=
        Nat.testBit_lt_two_pow
          (Nat.lt_of_lt_of_le h2 (Nat.pow_le_pow_right (by decide) (by omega)))
      simp [hle, hmi, h64, hs1, hs2]

theorem firstTwo_pair {c1 c2 : Nat} (h : c1 < c2) :
    firstTwo (2 ^ c1 ||| 2 ^ c2) = some (c1, c2) := by
  rw [firstTwo]
  simp only [bitNext_of_ne (or_two_pow_ne_zero c1 c2), tz_pair h,
    and_pred_eq (or_two_pow_ne_zero c1 c2), tz_pair h, one_shiftLeft_eq,
    two_pow_or_two_pow_ne (Nat.ne_of_lt h),
    bitNext_of_ne ((Nat.two_pow_pos c2).ne'), tz_two_pow]

theorem movesFor_pair_length (T : Tables) (g : Game) (hT : TablesFit T)
    (hmy : g.my < 2 ^ 32) {c1 c2 : Nat} (hlt : c1 < c2) (f : Nat) :
    popCount (andn64 (g.my ||| g.my <<< 32) (shiftedL T c1 f ||| shiftedU T c2 f))
      = (movesFor T g f (2 ^ c1 ||| 2 ^ c2)).length := by
  have hs1 : T.shifted c1 f < 2 ^ 32 := Nat.lt_of_lt_of_le (hT c1 f) (by decide)
  have hs2 : T.shifted c2 f < 2 ^ 32 := Nat.lt_of_lt_of_le (hT c2 f) (by decide)
  rw [shiftedL, shiftedU, andn64_split hmy hs1 hs2,
    popCount_or_high (andn32_lt hs1) (andn32_lt hs2)]
  simp only [movesFor, bitsList_pair hlt, List.flatMap_cons, List.flatMap_nil,
    List.append_nil, List.length_append, List.length_map, length_bitsList]
  rfl

/-- C1: the popcount-based `count_moves` agrees with the length of the forward
enumeration, for a well-formed position (nonempty piece mask, exactly two held
cards) and geometry tables meeting the spec's contract. -/
theorem count_moves_eq_forward_length (T : Tables) (g : Game) (hT : TablesFit T)
    (hmy : g.my < 2 ^ 32) (hpieces : g.next_my ≠ 0) {c1 c2 : Nat} (hlt : c1 < c2)
    (hand : g.next_my_card = 2 ^ c1 ||| 2 ^ c2) :
    Game.count_moves T g = (forwardList T g).length := by
  rw [Game.count_moves]
  simp only [hand, firstTwo_pair hlt]
  rw [foldl_add_map, forwardList_eq, length_flatMap_sum, Nat.zero_add]
  congr 1
  apply List.map_congr_left
  intro f _
  rw [hand]
  exact movesFor_pair_length T g hT hmy hlt f

/-! ### Single-bit algebra -/

theorem and_one_shl_eq_zero_iff {m k : Nat} :
    m &&& 1 <<< k = 0 ↔ m.testBit k = false := by
  rw [one_shiftLeft_eq]
  constructor
  · intro h
    have := congrArg (fun x => x.testBit k) h
    simpa [Nat.testBit_and, Nat.testBit_two_pow_self, Nat.zero_testBit] using this
  · intro h
    apply Nat.eq_of_testBit_eq
    intro i
    rw [Nat.testBit_and, Nat.testBit_two_pow, Nat.zero_testBit]
    rcases eq_or_ne k i with rfl | hki
    · simp [h]
    · simp [hki]

theorem and_pow_ne_zero_iff {m k : Nat} :
    m &&& 1 <<< k ≠ 0 ↔ m.testBit k = true := by
  rw [Ne, and_one_shl_eq_zero_iff, Bool.not_eq_false]

theorem or_and_pow_ne_zero_iff {a b k : Nat} :
    (a ||| b) &&& 1 <<< k ≠ 0 ↔ (a.testBit k = true ∨ b.testBit k = true) := by
  rw [and_pow_ne_zero_iff, Nat.testBit_or, Bool.or_eq_true]

theorem one_shl24_shr {k : Nat} (hk : k ≤ 24) : (1 <<< 24) >>> k = 1 <<< (24 - k) := by
  rw [one_shiftLeft_eq, one_shiftLeft_eq, Nat.shiftRight_eq_div_pow,
    Nat.pow_div hk (by decide)]

theorem andn32_pow_testBit {k m : Nat} (hk : k < 32) (hm : m < 2 ^ 32) (i : Nat) :
    (andn32 (1 <<< k) m).testBit i = if i = k then false else m.testBit i := by
  rw [andn32, mask32, Nat.testBit_and, Nat.testBit_xor, Nat.testBit_two_pow_sub_one,
    testBit_one_shiftLeft]
  rcases eq_or_ne i k with rfl | hik
  · simp [hk]
  · by_cases hi : i < 32
    · simp [hi, Ne.symm hik, hik]
    · have : m.testBit i = false :=
        Nat.testBit_lt_two_pow
          (Nat.lt_of_lt_of_le hm (Nat.pow_le_pow_right (by decide) (by omega)))
      simp [hi, hik, this, Ne.symm hik]

theorem andn32_single_bit {m k : Nat} (hm : m < 2 ^ 32) (hk : k < 32)
    (h : m.testBit k = true) : andn32 (1 <<< k) m = m ^^^ 1 <<< k := by
  apply Nat.eq_of_testBit_eq
  intro i
  rw [andn32_pow_testBit hk hm i, Nat.testBit_xor, testBit_one_shiftLeft]
  rcases eq_or_ne i k with rfl | hik
  · simp [h]
  · simp [hik, Ne.symm hik]

theorem xor_pow_of_testBit_false {m k : Nat} (h : m.testBit k = false) :
    m ^^^ 1 <<< k = m ||| 1 <<< k := by
  apply Nat.eq_of_testBit_eq
  intro i
  rw [Nat.testBit_xor, Nat.testBit_or, testBit_one_shiftLeft]
  rcases eq_or_ne k i with rfl | hki
  · simp [h]
  · simp [hki]

theorem two_pow_xor_two_pow_of_ne {a b : Nat} (h : a ≠ b) :
    2 ^ a ^^^ 2 ^ b = 2 ^ a ||| 2 ^ b := by
  have h1 : ((1 <<< a : Nat)).testBit b = false := by
    rw [testBit_one_shiftLeft]
    simp [h]
  have h2 := xor_pow_of_testBit_false h1
  rw [one_shiftLeft_eq, one_shiftLeft_eq] at h2
  exact h2

/-! ### C10, C4, C9 -/

/-- C10: `is_other_loss` is exactly `is_loss` evaluated on the position with
`my` and `other` exchanged, for any values of the (unread) `cards` and `table`
fields. -/
theorem is_other_loss_eq_is_loss_swap (g : Game) (c t : Nat) :
    g.is_other_loss = Game.is_loss { my := g.other, other := g.my, cards := c, table := t } := rfl

/-- C4: `is_loss` is true iff the other side's 5-bit king index is 22 or the
mover's king bit is absent from the mover's mask; and it reads only the `my`
and `other` fields. -/
theorem is_loss_iff_and_frame (g : Game) (hmy : g.my < 2 ^ 30) (hoth : g.other < 2 ^ 30) :
    (g.is_loss = true ↔
      ((g.other >>> 25) % 32 = 22 ∨ g.my.testBit ((g.my >>> 25) % 32) = false))
    ∧ ∀ g' : Game, g'.my = g.my → g'.other = g.other → g'.is_loss = g.is_loss := by
  constructor
  · have hob : g.other >>> 25 < 32 := by
      rw [Nat.shiftRight_eq_div_pow]
      exact Nat.div_lt_of_lt_mul (by omega)
    have hmb : g.my >>> 25 < 32 := by
      rw [Nat.shiftRight_eq_div_pow]
      exact Nat.div_lt_of_lt_mul (by omega)
    rw [Nat.mod_eq_of_lt hob, Nat.mod_eq_of_lt hmb, Game.is_loss]
    simp only [Bool.or_eq_true, beq_iff_eq]
    rw [and_one_shl_eq_zero_iff]
  · intro g' h1 h2
    rw [Game.is_loss, Game.is_loss, h1, h2]

/-- C9 (counterexample): on a full back row with the king's board bit set, as
the king-bit invariant requires, `count_pieces` returns 5, not the 4 non-king
pieces: the king is not excluded from the counted mask. -/
theorem count_pieces_includes_king :
    ¬ (Game.count_pieces gRow
        = popCount (andn32 (1 <<< (gRow.my >>> 25)) (gRow.my &&& PIECE_MASK))) := by
  decide

/-- C9 (amended): `count_pieces` is the popcount of the mover's 25-bit board
mask; whenever the king-bit invariant holds this counts the king too, i.e. it
equals the number of non-king pieces plus one. -/
theorem count_pieces_spec (g : Game)
    (hk : (g.my &&& PIECE_MASK).testBit (g.my >>> 25) = true) :
    Game.count_pieces g = popCount (g.my &&& PIECE_MASK)
    ∧ Game.count_pieces g
        = popCount (andn32 (1 <<< (g.my >>> 25)) (g.my &&& PIECE_MASK)) + 1 := by
  refine ⟨rfl, ?_⟩
  have hmask : g.my &&& PIECE_MASK < 2 ^ 32 := by
    have : g.my &&& PIECE_MASK < 2 ^ 25 := Nat.and_lt_two_pow g.my (by decide)
    omega
  have hklt : g.my >>> 25 < 32 := by
    have h2 : (2 : Nat) ^ (g.my >>> 25) ≤ g.my &&& PIECE_MASK := Nat.testBit_implies_ge hk
    have h3 : g.my &&& PIECE_MASK < 2 ^ 25 := Nat.and_lt_two_pow g.my (by decide)
    by_contra hge
    have : (2 : Nat) ^ 25 ≤ 2 ^ (g.my >>> 25) :=
      Nat.pow_le_pow_right (by decide) (by omega)
    omega
  rw [andn32_single_bit hmask hklt hk, Game.count_pieces]
  exact popCount_clear_bit hk

/-! ### C3: is_win -/

/-- C3: `is_win` holds exactly when some occupied origin square and one of the
two held cards give a destination mask hitting the opponent king's square
(translated into the mover's frame), or the origin is the mover's own king
square and the mask contains the gate square bit 22. -/
theorem is_win_iff (T : Tables) (g : Game) {c1 c2 : Nat} (hlt : c1 < c2)
    (hand : g.next_my_card = 2 ^ c1 ||| 2 ^ c2) (hko : g.other >>> 25 ≤ 24) :
    Game.is_win T g = true ↔
      ∃ f, (g.my &&& PIECE_MASK).testBit f = true ∧ ∃ c, (c = c1 ∨ c = c2) ∧
        ((T.shifted c f).testBit (24 - g.other >>> 25) = true ∨
          (f = g.my >>> 25 ∧ (T.shifted c f).testBit 22 = true)) := by
  rw [Game.is_win]
  simp only [hand, firstTwo_pair hlt]
  rw [List.any_eq_true]
  have hmem : ∀ f, f ∈ bitsList g.next_my ↔ (g.my &&& PIECE_MASK).testBit f = true :=
    fun f => mem_bitsList g.next_my f
  constructor
  · rintro ⟨f, hf, hp⟩
    refine ⟨f, (hmem f).mp hf, ?_⟩
    simp only [Bool.or_eq_true, Bool.and_eq_true, bne_iff_ne, beq_iff_eq,
      one_shl24_shr hko] at hp
    rcases hp with h | ⟨hk, h⟩
    · rcases or_and_pow_ne_zero_iff.mp h with h' | h'
      · exact ⟨c1, Or.inl rfl, Or.inl h'⟩
      · exact ⟨c2, Or.inr rfl, Or.inl h'⟩
    · rcases or_and_pow_ne_zero_iff.mp h with h' | h'
      · exact ⟨c1, Or.inl rfl, Or.inr ⟨hk, h'⟩⟩
      · exact ⟨c2, Or.inr rfl, Or.inr ⟨hk, h'⟩⟩
  · rintro ⟨f, hf, c, hc, hcase⟩
    refine ⟨f, (hmem f).mpr hf, ?_⟩
    simp only [Bool.or_eq_true, Bool.and_eq_true, bne_iff_ne, beq_iff_eq,
      one_shl24_shr hko]
    rcases hcase with h | ⟨hk, h⟩
    · refine Or.inl (or_and_pow_ne_zero_iff.mpr ?_)
      rcases hc with rfl | rfl
      · exact Or.inl h
      · exact Or.inr h
    · refine Or.inr ⟨hk, or_and_pow_ne_zero_iff.mpr ?_⟩
      rcases hc with rfl | rfl
      · exact Or.inl h
      · exact Or.inr h

/-! ### C5 and C6: the fields of a forward successor -/

theorem shl16_mod_two_pow_32 (x : Nat) : (x <<< 16) % 2 ^ 32 = (x % 2 ^ 16) <<< 16 := by
  have h32 : (2 : Nat) ^ 32 = 2 ^ 16 * 2 ^ 16 := by norm_num
  rw [Nat.shiftLeft_eq, Nat.shiftLeft_eq, h32, Nat.mul_mod_mul_right]

theorem swapHalves_spec (x : Nat) :
    swapHalves x = ((x % 2 ^ 16) <<< 16) ||| x >>> 16 := by
  rw [swapHalves, shl16_mod_two_pow_32]

/-- C5: a forward successor's `cards` field is the original with the used
card's bit cleared, the table card's bit set, and the 16-bit halves then
exchanged; its `table` field is the card just played. -/
theorem mkMove_cards_table (g : Game) (f d : Nat) {c : Nat}
    (hc : c ∈ bitsList g.next_my_card) (hc32 : g.cards < 2 ^ 32)
    (htab : g.cards.testBit g.table = false) :
    (mkMove g f c d).cards
      = (((andn32 (1 <<< c) g.cards ||| 1 <<< g.table) % 2 ^ 16) <<< 16)
          ||| (andn32 (1 <<< c) g.cards ||| 1 <<< g.table) >>> 16
    ∧ (mkMove g f c d).table = c := by
  rw [mem_bitsList] at hc
  have hcbit : g.cards.testBit c = true := by
    have := hc
    rw [Game.next_my_card, cardMask, Nat.testBit_and] at this
    exact (Bool.and_eq_true _ _).mp this |>.1
  have hc16 : c < 16 := by
    by_contra hge
    rw [Game.next_my_card, cardMask, Nat.testBit_and, Nat.testBit_two_pow_sub_one] at hc
    simp [Nat.not_lt.mp (by omega : ¬ c < 16)] at hc
    omega
  refine ⟨?_, rfl⟩
  show swapHalves (g.cards ^^^ 1 <<< c ^^^ 1 <<< g.table) = _
  have h1 : g.cards ^^^ 1 <<< c = andn32 (1 <<< c) g.cards :=
    (andn32_single_bit hc32 (by omega) hcbit).symm
  have h2 : (andn32 (1 <<< c) g.cards).testBit g.table = false := by
    rw [andn32_pow_testBit (by omega) hc32]
    rcases eq_or_ne g.table c with rfl | hne
    · simp
    · simp [hne, htab]
  rw [h1, xor_pow_of_testBit_false h2, swapHalves_spec]

/-- C6: a forward successor's `my` field (the old opponent, after the
perspective swap) is the old `other` field with at most the destination bit
(in the other side's frame) cleared; every other bit, including the packed
king index, is unchanged. -/
theorem mkMove_my_frame (T : Tables) (g : Game) (hT : TablesFit T) (f c : Nat) {d : Nat}
    (hoth : g.other < 2 ^ 32) (hd : d ∈ bitsList (g.next_to T f c)) :
    ((mkMove g f c d).my).testBit (24 - d) = false
    ∧ ∀ i, i ≠ 24 - d → ((mkMove g f c d).my).testBit i = g.other.testBit i := by
  rw [mem_bitsList] at hd
  have hd25 : d < 25 := by
    by_contra hge
    have hlt : g.next_to T f c < 2 ^ 25 :=
      Nat.lt_of_le_of_lt Nat.and_le_right (hT c f)
    rw [Nat.testBit_lt_two_pow
      (Nat.lt_of_lt_of_le hlt (Nat.pow_le_pow_right (by decide) (by omega)))] at hd
    cases hd
  have hmy : (mkMove g f c d).my = andn32 (1 <<< (24 - d)) g.other := by
    show andn32 ((1 <<< 24) >>> d) g.other = _
    rw [one_shl24_shr (by omega)]
  constructor
  · rw [hmy, andn32_pow_testBit (by omega) hoth]
    simp
  · intro i hi
    rw [hmy, andn32_pow_testBit (by omega) hoth]
    simp [hi]

/-! ### Half-word decomposition lemmas -/

theorem and_mask16_of_lt {x : Nat} (hx : x < 2 ^ 16) : x &&& (2 ^ 16 - 1) = x := by
  apply Nat.eq_of_testBit_eq
  intro i
  rw [Nat.testBit_and, Nat.testBit_two_pow_sub_one]
  by_cases hi : i < 16
  · simp [hi]
  · have : x.testBit i = false :=
      Nat.testBit_lt_two_pow
        (Nat.lt_of_lt_of_le hx (Nat.pow_le_pow_right (by decide) (by omega)))
    simp [hi, this]

theorem lor_shl16_and_mask {L H : Nat} (hL : L < 2 ^ 16) :
    (L ||| H <<< 16) &&& (2 ^ 16 - 1) = L := by
  apply Nat.eq_of_testBit_eq
  intro i
  rw [Nat.testBit_and, Nat.testBit_or, Nat.testBit_shiftLeft, Nat.testBit_two_pow_sub_one]
  by_cases hi : i < 16
  · have : ¬ 16 ≤ i := by omega
    simp [hi, this]
  · have : L.testBit i = false :=
      Nat.testBit_lt_two_pow
        (Nat.lt_of_lt_of_le hL (Nat.pow_le_pow_right (by decide) (by omega)))
    simp [hi, this]

theorem lor_shl16_shr {L H : Nat} (hL : L < 2 ^ 16) :
    (L ||| H <<< 16) >>> 16 = H := by
  apply Nat.eq_of_testBit_eq
  intro i
  rw [Nat.testBit_shiftRight, Nat.testBit_or, Nat.testBit_shiftLeft]
  have h1 : L.testBit (16 + i) = false :=
    Nat.testBit_lt_two_pow
      (Nat.lt_of_lt_of_le hL (Nat.pow_le_pow_right (by decide) (by omega)))
  simp [h1, Nat.le_add_right, Nat.add_sub_cancel_left]

theorem lor_shl16_mod {L H : Nat} (hL : L < 2 ^ 16) :
    (L ||| H <<< 16) % 2 ^ 16 = L := by
  apply Nat.eq_of_testBit_eq
  intro i
  rw [Nat.testBit_mod_two_pow, Nat.testBit_or, Nat.testBit_shiftLeft]
  by_cases hi : i < 16
  · have : ¬ 16 ≤ i := by omega
    simp [hi, this]
  · have : L.testBit i = false :=
      Nat.testBit_lt_two_pow
        (Nat.lt_of_lt_of_le hL (Nat.pow_le_pow_right (by decide) (by omega)))
    simp [hi, this]

theorem lor_shl16_xor {L H x : Nat} (hL : L < 2 ^ 16) (hx : x < 2 ^ 16) :
    (L ||| H <<< 16) ^^^ x = (L ^^^ x) ||| H <<< 16 := by
  apply Nat.eq_of_testBit_eq
  intro i
  rw [Nat.testBit_xor, Nat.testBit_or, Nat.testBit_or, Nat.testBit_xor,
    Nat.testBit_shiftLeft]
  by_cases hi : i < 16
  · have : ¬ 16 ≤ i := by omega
    simp [this]
  · have h1 : L.testBit i = false :=
      Nat.testBit_lt_two_pow
        (Nat.lt_of_lt_of_le hL (Nat.pow_le_pow_right (by decide) (by omega)))
    have h2 : x.testBit i = false :=
      Nat.testBit_lt_two_pow
        (Nat.lt_of_lt_of_le hx (Nat.pow_le_pow_right (by decide) (by omega)))
    simp [h1, h2]

theorem swapHalves_lor {L H : Nat} (hL : L < 2 ^ 16) :
    swapHalves (L ||| H <<< 16) = H ||| L <<< 16 := by
  rw [swapHalves_spec, lor_shl16_mod hL, lor_shl16_shr hL, Nat.lor_comm]

theorem testBit_pair {a b x : Nat} (h : ((2 : Nat) ^ a ||| 2 ^ b).testBit x = true) :
    x = a ∨ x = b := by
  rw [Nat.testBit_or, Bool.or_eq_true, Nat.testBit_two_pow, Nat.testBit_two_pow] at h
  rcases h with h | h
  · exact Or.inl (of_decide_eq_true h).symm
  · exact Or.inr (of_decide_eq_true h).symm

theorem two_pow_lt_two_pow_16 {a : Nat} (ha : a < 16) : (2 : Nat) ^ a < 2 ^ 16 :=
  Nat.pow_lt_pow_right (by decide) ha

theorem pair_lt_two_pow_16 {a b : Nat} (ha : a < 16) (hb : b < 16) :
    (2 : Nat) ^ a ||| 2 ^ b < 2 ^ 16 :=
  Nat.or_lt_two_pow (two_pow_lt_two_pow_16 ha) (two_pow_lt_two_pow_16 hb)

/-- Playing card `u` out of the hand `{u, v}` and picking up table card `t`. -/
theorem pair_xor_update {u v t H : Nat} (hu : u < 16) (hv : v < 16) (ht : t < 16)
    (huv : u ≠ v) (htv : t ≠ v) :
    ((2 ^ u ||| 2 ^ v) ||| H <<< 16) ^^^ 1 <<< u ^^^ 1 <<< t
      = (2 ^ v ||| 2 ^ t) ||| H <<< 16 := by
  rw [one_shiftLeft_eq, one_shiftLeft_eq,
    lor_shl16_xor (pair_lt_two_pow_16 hu hv) (two_pow_lt_two_pow_16 hu),
    two_pow_or_two_pow_ne huv,
    lor_shl16_xor (two_pow_lt_two_pow_16 hv) (two_pow_lt_two_pow_16 ht),
    two_pow_xor_two_pow_of_ne (fun h => htv h.symm)]

/-- Playing card `u` out of the hand `{u, v}`, picking up table card `t`, then
swapping the halves. -/
theorem pair_xor_swap {u v t H : Nat} (hu : u < 16) (hv : v < 16) (ht : t < 16)
    (huv : u ≠ v) (htv : t ≠ v) :
    swapHalves (((2 ^ u ||| 2 ^ v) ||| H <<< 16) ^^^ 1 <<< u ^^^ 1 <<< t)
      = H ||| (2 ^ v ||| 2 ^ t) <<< 16 := by
  rw [pair_xor_update hu hv ht huv htv, swapHalves_lor (pair_lt_two_pow_16 hv ht)]

/-! ### C7: card conservation -/

/-- C7: if a position satisfies the card invariant (two distinct cards per
side, one table card, five pairwise-distinct identities) then every forward
successor and every backward predecessor satisfies it too. -/
theorem card_conservation (T : Tables) (g : Game) (hok : CardsOk g.cards g.table) :
    (∀ S ∈ forwardList T g, CardsOk S.cards S.table)
    ∧ ∀ p ∈ backwardList T g, CardsOk (p.1).cards (p.1).table := by
  obtain ⟨a, b, c, d, ha, hb, hc, hd, ht, hab, hac, had, hat, hbc, hbd, hbt,
    hcd, hct, hdt, heq⟩ := hok
  have hL : (2 : Nat) ^ a ||| 2 ^ b < 2 ^ 16 := pair_lt_two_pow_16 ha hb
  have hH : (2 : Nat) ^ c ||| 2 ^ d < 2 ^ 16 := pair_lt_two_pow_16 hc hd
  have hhand : g.next_my_card = 2 ^ a ||| 2 ^ b := by
    rw [Game.next_my_card, cardMask, heq, lor_shl16_and_mask hL]
  have hohand : g.next_other_card = 2 ^ c ||| 2 ^ d := by
    rw [Game.next_other_card, cardMask, heq, lor_shl16_shr hL, and_mask16_of_lt hH]
  constructor
  · intro S hS
    rw [forwardList_eq, List.mem_flatMap] at hS
    obtain ⟨f, hf, hS⟩ := hS
    rw [movesFor, List.mem_flatMap] at hS
    obtain ⟨cu, hcu, hS⟩ := hS
    rw [List.mem_map] at hS
    obtain ⟨dst, hdst, rfl⟩ := hS
    rw [hhand, mem_bitsList] at hcu
    rcases testBit_pair hcu with rfl | rfl
    · show CardsOk (swapHalves (g.cards ^^^ 1 <<< cu ^^^ 1 <<< g.table)) cu
      rw [heq, pair_xor_swap ha hb ht hab (Ne.symm hbt)]
      exact ⟨c, d, b, g.table, hc, hd, hb, ht, ha, hcd, Ne.symm hbc, hct,
        Ne.symm hac, Ne.symm hbd, hdt, Ne.symm had, hbt, Ne.symm hab, Ne.symm hat, rfl⟩
    · show CardsOk (swapHalves (g.cards ^^^ 1 <<< cu ^^^ 1 <<< g.table)) cu
      rw [heq, Nat.lor_comm ((2 : Nat) ^ a) (2 ^ cu),
        pair_xor_swap hb ha ht (Ne.symm hab) (Ne.symm hat)]
      exact ⟨c, d, a, g.table, hc, hd, ha, ht, hb, hcd, Ne.symm hac, hct,
        Ne.symm hbc, Ne.symm had, hdt, Ne.symm hbd, hat, hab, Ne.symm hbt, rfl⟩
  · intro p hp
    rw [backwardList_eq, List.mem_flatMap] at hp
    obtain ⟨t', ht', hp⟩ := hp
    rw [backsFor, List.mem_flatMap] at hp
    obtain ⟨cu, hcu, hp⟩ := hp
    rw [List.mem_map] at hp
    obtain ⟨frm, hfrm, rfl⟩ := hp
    rw [hohand, mem_bitsList] at hcu
    have hsw : swapHalves g.cards = (2 ^ c ||| 2 ^ d) ||| (2 ^ a ||| 2 ^ b) <<< 16 := by
      rw [heq, swapHalves_lor hL]
    rcases testBit_pair hcu with rfl | rfl
    · show CardsOk (swapHalves g.cards ^^^ 1 <<< cu ^^^ 1 <<< g.table) cu
      rw [hsw, pair_xor_update hc hd ht hcd (Ne.symm hdt)]
      exact ⟨d, g.table, a, b, hd, ht, ha, hb, hc, hdt, Ne.symm had, Ne.symm hbd,
        Ne.symm hcd, Ne.symm hat, Ne.symm hbt, Ne.symm hct, hab, hac, hbc, rfl⟩
    · show CardsOk (swapHalves g.cards ^^^ 1 <<< cu ^^^ 1 <<< g.table) cu
      rw [hsw, Nat.lor_comm ((2 : Nat) ^ c) (2 ^ cu),
        pair_xor_update hd hc ht (Ne.symm hcd) (Ne.symm hct)]
      exact ⟨c, g.table, a, b, hc, ht, ha, hb, hd, hct, Ne.symm hac, Ne.symm hbc,
        hcd, Ne.symm hat, Ne.symm hbt, Ne.symm hdt, hab, had, hbd, rfl⟩

/-! ### C8: reported length under partial consumption -/

theorem iterNextStep1 (T : Tables) (g : Game) {F fc CM cc TM t to' : Nat}
    (hto : bitNext TM = some (t, to')) :
    iterNextAux T g F fc CM cc TM
      = some (mkMove g fc cc t, ⟨g, F, fc, CM, cc, to'⟩) := by
  rw [iterNextAux, hto]

theorem iterNextStep2 (T : Tables) (g : Game) {F fc CM cc TM c card' : Nat}
    (hto : bitNext TM = none) (hc : bitNext CM = some (c, card')) :
    iterNextAux T g F fc CM cc TM
      = iterNextAux T g F fc card' c (g.next_to T fc c) := by
  rw [iterNextAux, hto, hc]

theorem iterNextStep3 (T : Tables) (g : Game) {F fc CM cc TM : Nat}
    (hto : bitNext TM = none) (hc : bitNext CM = none) (hf : bitNext F = none) :
    iterNextAux T g F fc CM cc TM = none := by
  rw [iterNextAux, hto, hc, hf]

theorem iterNextStep4 (T : Tables) (g : Game) {F fc CM cc TM f from' : Nat}
    (hto : bitNext TM = none) (hc : bitNext CM = none)
    (hf : bitNext F = some (f, from')) (hm : bitNext g.next_my_card = none) :
    iterNextAux T g F fc CM cc TM = none := by
  rw [iterNextAux, hto, hc, hf, hm]

theorem iterNextStep5 (T : Tables) (g : Game) {F fc CM cc TM f from' c card' : Nat}
    (hto : bitNext TM = none) (hc : bitNext CM = none)
    (hf : bitNext F = some (f, from')) (hm : bitNext g.next_my_card = some (c, card')) :
    iterNextAux T g F fc CM cc TM
      = iterNextAux T g from' f card' c (g.next_to T f c) := by
  rw [iterNextAux, hto, hc, hf, hm]

/-- The `next()` step never touches the borrowed `game` field. -/
theorem iterNextAux_game (T : Tables) (g : Game) (F fc CM cc TM : Nat) :
    ∀ mv s', iterNextAux T g F fc CM cc TM = some (mv, s') → s'.game = g := by
  induction F, fc, CM, cc, TM using iterNextAux.induct T g with
  | case1 F fc CM cc TM t to' hto =>
    intro mv s' h
    rw [iterNextStep1 T g hto] at h
    obtain ⟨-, h2⟩ := Prod.mk.injEq .. ▸ Option.some.inj h
    rw [← h2]
  | case2 F fc CM cc TM hto c card' hc ih =>
    intro mv s' h
    rw [iterNextStep2 T g hto hc] at h
    exact ih mv s' h
  | case3 F fc CM cc TM hto hc hf =>
    intro mv s' h
    rw [iterNextStep3 T g hto hc hf] at h
    cases h
  | case4 F fc CM cc TM hto hc f from' hf hm =>
    intro mv s' h
    rw [iterNextStep4 T g hto hc hf hm] at h
    cases h
  | case5 F fc CM cc TM hto hc f from' hf c card' hm ih =>
    intro mv s' h
    rw [iterNextStep5 T g hto hc hf hm] at h
    exact ih mv s' h

theorem consume_game (T : Tables) (k : Nat) (s : GameIterState) :
    (consume T k s).game = s.game := by
  induction k generalizing s with
  | zero => rfl
  | succ k ih =>
    show (match s.next T with
      | none => s
      | some (_, s') => consume T k s').game = s.game
    cases hn : s.next T with
    | none => rfl
    | some p =>
      obtain ⟨mv, s'⟩ := p
      have hg : s'.game = s.game :=
        iterNextAux_game T s.game s.fromIter s.fromCurr s.cardIter s.cardCurr s.toIter mv s' hn
      rw [ih s', hg]

/-- C8: after any number of `next()` calls, the iterator's reported length is
`count_moves` of the ORIGINAL position, not the number of remaining items. -/
theorem len_independent_of_consumption (T : Tables) (g : Game) {s0 : GameIterState}
    (hs : forwardInit T g = some s0) (k : Nat) :
    iterLen T (consume T k s0) = Game.count_moves T g := by
  have hgame : s0.game = g := by
    rw [forwardInit] at hs
    split at hs
    · cases hs
    · split at hs
      · cases hs
      · rw [← Option.some.inj hs]
  rw [iterLen, consume_game, hgame]

/-! ### Bit-reversal and shift lemmas for the retrograde enumerator -/

theorem rev32_go_lt : ∀ (n x : Nat), rev32.go x n < 2 ^ n := by
  intro n
  induction n with
  | zero => intro x; simp [rev32.go]
  | succ n ih =>
    intro x
    show (x % 2) <<< n + rev32.go (x / 2) n < 2 ^ (n + 1)
    have h1 : x % 2 ≤ 1 := by omega
    have h2 := ih (x / 2)
    rw [Nat.shiftLeft_eq]
    have h3 : x % 2 * 2 ^ n ≤ 2 ^ n := by
      calc x % 2 * 2 ^ n ≤ 1 * 2 ^ n := Nat.mul_le_mul_right _ h1
      _ = 2 ^ n := Nat.one_mul _
    have h4 : (2 : Nat) ^ (n + 1) = 2 ^ n + 2 ^ n := by
      rw [Nat.pow_succ]
      omega
    omega

theorem rev32_go_testBit : ∀ (n x j : Nat),
    (rev32.go x n).testBit j = (decide (j < n) && x.testBit (n - 1 - j)) := by
  intro n
  induction n with
  | zero => intro x j; simp [rev32.go, Nat.zero_testBit]
  | succ n ih =>
    intro x j
    show ((x % 2) <<< n + rev32.go (x / 2) n).testBit j = _
    rw [Nat.shiftLeft_eq, Nat.mul_comm,
      Nat.testBit_mul_pow_two_add (x % 2) (rev32_go_lt n (x / 2)) j]
    by_cases hj : j < n
    · rw [if_pos hj, ih]
      have he : n - 1 - j + 1 = n + 1 - 1 - j := by omega
      rw [Nat.testBit_div_two, he]
      simp [hj, Nat.lt_succ_of_lt hj]
    · rw [if_neg hj]
      rcases eq_or_ne j n with heq | hne
      · rw [heq, Nat.sub_self]
        have h1 : n + 1 - 1 - n = 0 := by omega
        rw [h1]
        have h2 : x % 2 % 2 = x % 2 := Nat.mod_mod_of_dvd x (Nat.dvd_refl 2)
        simp [Nat.testBit_zero, h2]
      · have hgt : n < j := by omega
        have hp : (2 : Nat) ≤ 2 ^ (j - n) := by
          calc (2 : Nat) = 2 ^ 1 := rfl
          _ ≤ 2 ^ (j - n) := Nat.pow_le_pow_right (by decide) (by omega)
        have h0 : (x % 2 : Nat) < 2 ^ (j - n) :=
          Nat.lt_of_lt_of_le (Nat.mod_lt x (by decide)) hp
        rw [Nat.testBit_lt_two_pow h0]
        have : ¬ j < n + 1 := by omega
        simp [this]

theorem rev7_testBit {x f : Nat} (hf : f ≤ 24) :
    (rev32 x >>> 7).testBit f = x.testBit (24 - f) := by
  rw [Nat.testBit_shiftRight]
  show (rev32.go x 32).testBit (7 + f) = _
  rw [rev32_go_testBit]
  have h1 : 7 + f < 32 := by omega
  have h2 : 32 - 1 - (7 + f) = 24 - f := by omega
  simp [h1, h2]

theorem andn32_testBit_lt {a b i : Nat} (hi : i < 32) :
    (andn32 a b).testBit i = (!a.testBit i && b.testBit i) := by
  rw [andn32, mask32, Nat.testBit_and, Nat.testBit_xor, Nat.testBit_two_pow_sub_one]
  simp [hi, Bool.xor_comm]

theorem xor_pow_shr25 {y k : Nat} (hk : k < 25) : (y ^^^ 1 <<< k) >>> 25 = y >>> 25 := by
  apply Nat.eq_of_testBit_eq
  intro i
  rw [Nat.testBit_shiftRight, Nat.testBit_shiftRight, Nat.testBit_xor,
    testBit_one_shiftLeft]
  have : k ≠ 25 + i := by omega
  simp [this]

theorem lor_shl25_shr {a k : Nat} (ha : a < 2 ^ 25) : (a ||| k <<< 25) >>> 25 = k := by
  apply Nat.eq_of_testBit_eq
  intro i
  rw [Nat.testBit_shiftRight, Nat.testBit_or, Nat.testBit_shiftLeft]
  have h1 : a.testBit (25 + i) = false :=
    Nat.testBit_lt_two_pow
      (Nat.lt_of_lt_of_le ha (Nat.pow_le_pow_right (by decide) (by omega)))
  simp [h1, Nat.le_add_right, Nat.add_sub_cancel_left]

theorem PIECE_testBit (i : Nat) : PIECE_MASK.testBit i = decide (i < 25) := by
  rw [PIECE_MASK, one_shiftLeft_eq, Nat.testBit_two_pow_sub_one]

theorem and_piece_or_shr25 (x : Nat) : x &&& PIECE_MASK ||| (x >>> 25) <<< 25 = x := by
  apply Nat.eq_of_testBit_eq
  intro i
  rw [Nat.testBit_or, Nat.testBit_and, PIECE_testBit, Nat.testBit_shiftLeft,
    Nat.testBit_shiftRight]
  by_cases hi : i < 25
  · have : ¬ 25 ≤ i := by omega
    simp [hi, this]
  · have h25 : 25 ≤ i := by omega
    have : 25 + (i - 25) = i := by omega
    simp [hi, h25, this]

/-! ### C2: forward/backward duality -/

/-- C2 (amended): for a well-formed position, every successor produced by
`forward` admits a pair `(P', m)` in `backward` of the successor whose `my`,
`cards` and `table` fields equal the original's, whose mask `m` is the vacated
destination bit, and whose `other` field is the original `other` with that bit
cleared — so `P'` equals the original position exactly when the move was not a
capture. -/
theorem backward_recovers (T : Tables) (g : Game) (hT : TablesFit T) (hR : TablesRev T)
    (hmy : g.my < 2 ^ 30) (hoth : g.other < 2 ^ 32)
    (hking : g.my.testBit (g.my >>> 25) = true)
    (hkgate : g.my >>> 25 ≠ 22)
    (hdisj : ∀ i, i < 25 → g.my.testBit i = true → g.other.testBit (24 - i) = false)
    (hok : CardsOk g.cards g.table)
    {S : Game} (hS : S ∈ forwardList T g) :
    ∃ P' m, (P', m) ∈ backwardList T S
      ∧ P'.my = g.my ∧ P'.cards = g.cards ∧ P'.table = g.table
      ∧ P'.other = andn32 m g.other := by
  obtain ⟨a, b, c, d0, ha, hb, hc, hd0, ht, hab, hac, had, hat, hbc, hbd, hbt,
    hcd, hct, hdt, heq⟩ := hok
  have hL : (2 : Nat) ^ a ||| 2 ^ b < 2 ^ 16 := pair_lt_two_pow_16 ha hb
  have hH : (2 : Nat) ^ c ||| 2 ^ d0 < 2 ^ 16 := pair_lt_two_pow_16 hc hd0
  have hhand : g.next_my_card = 2 ^ a ||| 2 ^ b := by
    rw [Game.next_my_card, cardMask, heq, lor_shl16_and_mask hL]
  rw [forwardList_eq, List.mem_flatMap] at hS
  obtain ⟨f, hfmem, hS⟩ := hS
  rw [movesFor, List.mem_flatMap] at hS
  obtain ⟨cu, hcu, hS⟩ := hS
  rw [List.mem_map] at hS
  obtain ⟨d, hdmem, rfl⟩ := hS
  rw [mem_bitsList, Game.next_my, Nat.testBit_and, PIECE_testBit,
    Bool.and_eq_true] at hfmem
  obtain ⟨hmyf, hf25d⟩ := hfmem
  have hf25 : f < 25 := of_decide_eq_true hf25d
  have hnextlt : g.next_to T f cu < 2 ^ 25 :=
    Nat.lt_of_le_of_lt Nat.and_le_right (hT cu f)
  rw [mem_bitsList] at hdmem
  have hd25 : d < 25 := by
    by_contra hge
    rw [Nat.testBit_lt_two_pow
      (Nat.lt_of_lt_of_le hnextlt (Nat.pow_le_pow_right (by decide) (by omega)))] at hdmem
    cases hdmem
  rw [Game.next_to, andn32_testBit_lt (by omega), Bool.and_eq_true] at hdmem
  obtain ⟨hmyd', hshd⟩ := hdmem
  have hmyd : g.my.testBit d = false := by
    cases h : g.my.testBit d
    · rfl
    · rw [h] at hmyd'
      cases hmyd'
  have hfd : f ≠ d := by
    intro h
    rw [h, hmyd] at hmyf
    cases hmyf
  have hdk : d ≠ g.my >>> 25 := by
    intro h
    rw [h, hking] at hmyd
    cases hmyd
  rw [hhand, mem_bitsList] at hcu
  set S := mkMove g f cu d with hSdef
  have hSmy : S.my = andn32 ((1 <<< 24) >>> d) g.other := rfl
  have hStable : S.table = cu := rfl
  have hScards : S.cards = swapHalves (g.cards ^^^ 1 <<< cu ^^^ 1 <<< g.table) := rfl
  have hSother : S.other = (if f = g.my >>> 25
      then (g.my ^^^ 1 <<< f ^^^ 1 <<< d) &&& PIECE_MASK ||| d <<< 25
      else g.my ^^^ 1 <<< f ^^^ 1 <<< d) := rfl
  have hm'd : (g.my ^^^ 1 <<< f ^^^ 1 <<< d).testBit d = true := by
    rw [Nat.testBit_xor, Nat.testBit_xor, testBit_one_shiftLeft, testBit_one_shiftLeft]
    simp [hmyd, hfd]
  have hdf : d ≠ f := fun h => hfd h.symm
  have hm'f : (g.my ^^^ 1 <<< f ^^^ 1 <<< d).testBit f = false := by
    rw [Nat.testBit_xor, Nat.testBit_xor, testBit_one_shiftLeft, testBit_one_shiftLeft]
    simp [hmyf, hdf]
  have hpiece_lt : PIECE_MASK < 2 ^ 25 := by decide
  have hSod : S.other.testBit d = true := by
    rw [hSother]
    by_cases hfk : f = g.my >>> 25
    · rw [if_pos hfk, Nat.testBit_or, Nat.testBit_and, PIECE_testBit]
      simp [hm'd, hd25]
    · rw [if_neg hfk]
      exact hm'd
  have hSof : S.other.testBit f = false := by
    rw [hSother]
    by_cases hfk : f = g.my >>> 25
    · rw [if_pos hfk, Nat.testBit_or, Nat.testBit_and, PIECE_testBit,
        Nat.testBit_shiftLeft]
      have h1 : ¬ 25 ≤ f := by omega
      simp [hm'f, h1]
    · rw [if_neg hfk]
      exact hm'f
  have hSoshr : S.other >>> 25 = (if f = g.my >>> 25 then d else g.my >>> 25) := by
    rw [hSother]
    by_cases hfk : f = g.my >>> 25
    · rw [if_pos hfk, if_pos hfk, lor_shl25_shr (Nat.and_lt_two_pow _ hpiece_lt)]
    · rw [if_neg hfk, if_neg hfk, xor_pow_shr25 hd25, xor_pow_shr25 hf25]
  have hcond : (d = S.other >>> 25) ↔ (f = g.my >>> 25) := by
    rw [hSoshr]
    by_cases hfk : f = g.my >>> 25
    · simp [hfk]
    · simp [hfk, hdk]
  have hd_mem : d ∈ bitsList S.next_other := by
    rw [mem_bitsList, Game.next_other, Nat.testBit_and, PIECE_testBit]
    simp [hSod, hd25]
  have hpack : g.table ∈ bitsList S.next_other_card
      ∧ swapHalves S.cards ^^^ 1 <<< g.table ^^^ 1 <<< S.table = g.cards := by
    rcases testBit_pair hcu with rfl | rfl
    · have hSc : S.cards = (2 ^ c ||| 2 ^ d0) ||| (2 ^ b ||| 2 ^ g.table) <<< 16 := by
        rw [hScards, heq, pair_xor_swap ha hb ht hab (Ne.symm hbt)]
      constructor
      · rw [mem_bitsList, Game.next_other_card, hSc, lor_shl16_shr hH, cardMask,
          and_mask16_of_lt (pair_lt_two_pow_16 hb ht), Nat.testBit_or,
          Nat.testBit_two_pow_self]
        simp
      · rw [hStable, hSc, swapHalves_lor hH,
          Nat.lor_comm ((2 : Nat) ^ b) (2 ^ g.table),
          pair_xor_update ht hb ha (Ne.symm hbt) hab, heq,
          Nat.lor_comm ((2 : Nat) ^ cu) (2 ^ b)]
    · have hSc : S.cards = (2 ^ c ||| 2 ^ d0) ||| (2 ^ a ||| 2 ^ g.table) <<< 16 := by
        rw [hScards, heq, Nat.lor_comm ((2 : Nat) ^ a) (2 ^ cu),
          pair_xor_swap hb ha ht (Ne.symm hab) (Ne.symm hat)]
      constructor
      · rw [mem_bitsList, Game.next_other_card, hSc, lor_shl16_shr hH, cardMask,
          and_mask16_of_lt (pair_lt_two_pow_16 ha ht), Nat.testBit_or,
          Nat.testBit_two_pow_self]
        simp
      · rw [hStable, hSc, swapHalves_lor hH,
          Nat.lor_comm ((2 : Nat) ^ a) (2 ^ g.table),
          pair_xor_update ht ha hb (Ne.symm hat) (Ne.symm hab), heq]
  obtain ⟨htm, hrec⟩ := hpack
  have hf_mem : f ∈ bitsList (S.next_from T d S.table) := by
    rw [mem_bitsList]
    show (andn32 (if d = S.other >>> 25 then rev32 S.my >>> 7 ||| 1 <<< 22
        else rev32 S.my >>> 7) (andn32 S.other (T.shiftedR S.table d))).testBit f = true
    have hsr : (T.shiftedR cu d).testBit f = true := by
      rw [hR cu f d hf25 hd25]
      exact hshd
    have hbase : (rev32 S.my >>> 7).testBit f = false := by
      rw [rev7_testBit (by omega), hSmy, one_shl24_shr (by omega : d ≤ 24),
        andn32_pow_testBit (by omega) hoth]
      have hne : 24 - f ≠ 24 - d := by omega
      rw [if_neg hne]
      exact hdisj f hf25 hmyf
    have hrev : (if d = S.other >>> 25 then rev32 S.my >>> 7 ||| 1 <<< 22
        else rev32 S.my >>> 7).testBit f = false := by
      by_cases hc2 : d = S.other >>> 25
      · rw [if_pos hc2, Nat.testBit_or, testBit_one_shiftLeft, hbase]
        have hf22 : (22 : Nat) ≠ f := by
          have hfk := hcond.mp hc2
          intro h
          rw [hfk] at h
          exact hkgate h.symm
        simp [hf22]
      · rw [if_neg hc2]
        exact hbase
    rw [andn32_testBit_lt (by omega), andn32_testBit_lt (by omega), hrev, hStable,
      hsr, hSof]
    rfl
  have hPmy : (mkBack S d g.table f).1.my = g.my := by
    show (if d = S.other >>> 25
        then (S.other ^^^ 1 <<< d ^^^ 1 <<< f) &&& PIECE_MASK ||| f <<< 25
        else S.other ^^^ 1 <<< d ^^^ 1 <<< f) = g.my
    by_cases hfk : f = g.my >>> 25
    · rw [if_pos (hcond.mpr hfk), hSother, if_pos hfk]
      have hX : (((g.my ^^^ 1 <<< f ^^^ 1 <<< d) &&& PIECE_MASK ||| d <<< 25)
          ^^^ 1 <<< d ^^^ 1 <<< f) &&& PIECE_MASK = g.my &&& PIECE_MASK := by
        apply Nat.eq_of_testBit_eq
        intro i
        simp only [Nat.testBit_and, Nat.testBit_xor, Nat.testBit_or,
          Nat.testBit_shiftLeft, PIECE_testBit, testBit_one_shiftLeft]
        by_cases hi : i < 25
        · have h1 : ¬ 25 ≤ i := by omega
          simp only [hi, h1, decide_True, decide_False, Bool.false_and,
            Bool.or_false, Bool.and_true]
          simp [Bool.xor_assoc]
        · simp [hi]
      rw [hX]
      conv_rhs => rw [← and_piece_or_shr25 g.my]
      rw [hfk]
    · rw [if_neg (fun h => hfk (hcond.mp h)), hSother, if_neg hfk,
        Nat.xor_cancel_right, Nat.xor_cancel_right]
  refine ⟨(mkBack S d g.table f).1, (mkBack S d g.table f).2, ?_, hPmy, hrec, rfl, rfl⟩
  rw [backwardList_eq, List.mem_flatMap]
  refine ⟨d, hd_mem, ?_⟩
  rw [backsFor, List.mem_flatMap]
  refine ⟨g.table, htm, ?_⟩
  rw [List.mem_map]
  exact ⟨f, hf_mem, rfl⟩

/-! ### Fixture facts -/

theorem Tw_fit : TablesFit Tw := by
  intro c f
  show (if c = 0 ∧ f = 0 then (1 : Nat) <<< 5 else 0) < 2 ^ 25
  split
  · decide
  · decide

theorem Tw_rev : TablesRev Tw := by
  intro c f t hf ht
  show (if c = 0 ∧ t = 5 then (1 : Nat) else 0).testBit f
      = (if c = 0 ∧ f = 0 then (1 : Nat) <<< 5 else 0).testBit t
  by_cases hc : c = 0
  · by_cases ht5 : t = 5
    · by_cases hf0 : f = 0
      · rw [if_pos ⟨hc, ht5⟩, if_pos ⟨hc, hf0⟩, ht5, hf0]
        decide
      · rw [if_pos ⟨hc, ht5⟩, if_neg (fun h => hf0 h.2)]
        have h1 : (1 : Nat) = 2 ^ 0 := rfl
        rw [h1, Nat.testBit_two_pow_of_ne (fun h => hf0 h.symm), Nat.zero_testBit]
    · by_cases hf0 : f = 0
      · rw [if_neg (fun h => ht5 h.2), if_pos ⟨hc, hf0⟩, Nat.zero_testBit,
          testBit_one_shiftLeft]
        have h5t : ¬ (5 = t) := fun h => ht5 h.symm
        simp [h5t]
      · rw [if_neg (fun h => ht5 h.2), if_neg (fun h => hf0 h.2),
          Nat.zero_testBit, Nat.zero_testBit]
  · rw [if_neg (fun h => hc h.1), if_neg (fun h => hc h.1),
      Nat.zero_testBit, Nat.zero_testBit]

theorem gW_cards : CardsOk gW.cards gW.table := by
  refine ⟨0, 1, 2, 3, ?_, ?_, ?_, ?_, ?_, ?_, ?_, ?_, ?_, ?_, ?_, ?_, ?_, ?_, ?_, ?_⟩
    <;> decide

theorem gCap_cards : CardsOk gCap.cards gCap.table := by
  refine ⟨0, 1, 2, 3, ?_, ?_, ?_, ?_, ?_, ?_, ?_, ?_, ?_, ?_, ?_, ?_, ?_, ?_, ?_, ?_⟩
    <;> decide

/-! ### Witnesses and the C2 counterexample -/

/-- C1 witness: on the concrete fixture the fast count and the enumeration
length agree (both are 1). -/
theorem count_moves_eq_forward_length_witness :
    Game.count_moves Tw gW = (forwardList Tw gW).length :=
  @count_moves_eq_forward_length Tw gW Tw_fit (by decide) (by decide) 0 1 (by decide)
    (by decide)

/-- C2 witness: for the non-capturing fixture move, the retrograde enumeration
of the successor contains the original position (destination bit was empty). -/
theorem backward_recovers_witness :
    ∃ P' m, (P', m) ∈ backwardList Tw (mkMove gW 0 0 5)
      ∧ P'.my = gW.my ∧ P'.cards = gW.cards ∧ P'.table = gW.table
      ∧ P'.other = andn32 m gW.other :=
  backward_recovers Tw gW Tw_fit Tw_rev (by decide) (by decide) (by decide) (by decide)
    (by decide) gW_cards
    (show mkMove gW 0 0 5 ∈ forwardList Tw gW by rw [forwardList_eq]; decide)

/-- C2 counterexample: `gCap` is well-formed (contract-satisfying tables, card
invariant, live king off the gate, disjoint boards), its only forward move is
a capture, and NO pair produced by the retrograde enumeration of the successor
equals the original position field-for-field: the captured piece cannot be
restored. -/
theorem backward_misses_capture :
    TablesFit Tw ∧ TablesRev Tw ∧ CardsOk gCap.cards gCap.table
    ∧ gCap.my < 2 ^ 30 ∧ gCap.other < 2 ^ 32
    ∧ gCap.my.testBit (gCap.my >>> 25) = true ∧ gCap.my >>> 25 ≠ 22
    ∧ (∀ i, i < 25 → gCap.my.testBit i = true → gCap.other.testBit (24 - i) = false)
    ∧ (mkMove gCap 0 0 5) ∈ forwardList Tw gCap
    ∧ ∀ p ∈ backwardList Tw (mkMove gCap 0 0 5), p.1 ≠ gCap := by
  refine ⟨Tw_fit, Tw_rev, gCap_cards, by decide, by decide, by decide, by decide,
    by decide, ?_, ?_⟩
  · rw [forwardList_eq]
    decide
  · rw [backwardList_eq]
    decide

/-- C3 witness. -/
theorem is_win_iff_witness :
    Game.is_win Tw gW = true ↔
      ∃ f, (gW.my &&& PIECE_MASK).testBit f = true ∧ ∃ c, (c = 0 ∨ c = 1) ∧
        ((Tw.shifted c f).testBit (24 - gW.other >>> 25) = true ∨
          (f = gW.my >>> 25 ∧ (Tw.shifted c f).testBit 22 = true)) :=
  @is_win_iff Tw gW 0 1 (by decide) (by decide) (by decide)

/-- C4 witness. -/
theorem is_loss_iff_and_frame_witness :
    (gW.is_loss = true ↔
      ((gW.other >>> 25) % 32 = 22 ∨ gW.my.testBit ((gW.my >>> 25) % 32) = false))
    ∧ ∀ g' : Game, g'.my = gW.my → g'.other = gW.other → g'.is_loss = gW.is_loss :=
  is_loss_iff_and_frame gW (by decide) (by decide)

/-- C5 witness. -/
theorem mkMove_cards_table_witness :
    (mkMove gW 0 0 5).cards
      = (((andn32 (1 <<< 0) gW.cards ||| 1 <<< gW.table) % 2 ^ 16) <<< 16)
          ||| (andn32 (1 <<< 0) gW.cards ||| 1 <<< gW.table) >>> 16
    ∧ (mkMove gW 0 0 5).table = 0 :=
  @mkMove_cards_table gW 0 5 0 (by decide) (by decide) (by decide)

/-- C6 witness. -/
theorem mkMove_my_frame_witness :
    ((mkMove gW 0 0 5).my).testBit (24 - 5) = false
    ∧ ∀ i, i ≠ 24 - 5 → ((mkMove gW 0 0 5).my).testBit i = gW.other.testBit i :=
  @mkMove_my_frame Tw gW Tw_fit 0 0 5 (by decide) (by decide)

/-- C7 witness. -/
theorem card_conservation_witness :
    (∀ S ∈ forwardList Tw gW, CardsOk S.cards S.table)
    ∧ ∀ p ∈ backwardList Tw gW, CardsOk (p.1).cards (p.1).table :=
  card_conservation Tw gW gW_cards

/-- C8 witness: after one `next()` call the reported length still equals
`count_moves` of the original position. -/
theorem len_independent_of_consumption_witness :
    iterLen Tw (consume Tw 1 ⟨gW, 0, 0, 2, 0, 32⟩) = Game.count_moves Tw gW :=
  len_independent_of_consumption Tw gW (by decide) 1

/-- C9 witness (for the amended statement). -/
theorem count_pieces_spec_witness :
    Game.count_pieces gRow = popCount (gRow.my &&& PIECE_MASK)
    ∧ Game.count_pieces gRow
        = popCount (andn32 (1 <<< (gRow.my >>> 25)) (gRow.my &&& PIECE_MASK)) + 1 :=
  count_pieces_spec gRow (by decide)

end Onitama
